import Mathlib

/-!
Verification development for the MMDit graph layout engine
(`src/components/NetworkGraph.tsx`, `src/components/SplineEdge.tsx`).

The TypeScript source is shallowly embedded: JavaScript `Map`s become
insertion-ordered association lists, `Set`s become duplicate-free lists,
numbers become `Int`/`ℚ`, and the recursive bottom-up level walk becomes a
fuel-indexed function returning `Option` (`none` = the recursion exceeded
the given depth bound, i.e. unbounded recursion / stack exhaustion).
-/

set_option autoImplicit false

namespace MMDit

/-! ### JS `Map` / `Set` primitives over insertion-ordered lists -/

section AListHelpers

variable {κ ν : Type} [DecidableEq κ]

/-- JS `Map.get`: value of the first (only) entry with the given key. -/
def alGet (m : List (κ × ν)) (k : κ) : Option ν :=
  (m.find? (fun p => decide (p.1 = k))).map Prod.snd

/-- JS `Map.has`. -/
def alHas (m : List (κ × ν)) (k : κ) : Bool :=
  (alGet m k).isSome

/-- JS `Map.set`: update the entry in place (keeping its position) or append. -/
def alSet (m : List (κ × ν)) (k : κ) (v : ν) : List (κ × ν) :=
  if alHas m k then m.map (fun p => if p.1 = k then (k, v) else p)
  else m ++ [(k, v)]

/-- JS `Set.add`: append if absent (insertion order preserved). -/
def setAdd (s : List κ) (x : κ) : List κ :=
  if x ∈ s then s else s ++ [x]

@[simp] theorem alGet_nil (k : κ) : alGet ([] : List (κ × ν)) k = none := rfl

theorem alGet_cons (p : κ × ν) (m : List (κ × ν)) (k : κ) :
    alGet (p :: m) k = if p.1 = k then some p.2 else alGet m k := by
  by_cases hp : p.1 = k
  · unfold alGet
    rw [List.find?_cons_of_pos _ (by simpa using hp), if_pos hp]
    rfl
  · unfold alGet
    rw [List.find?_cons_of_neg _ (by simpa using hp), if_neg hp]

theorem alGet_append (m m' : List (κ × ν)) (k : κ) :
    alGet (m ++ m') k = ((alGet m k).or (alGet m' k)) := by
  unfold alGet
  rw [List.find?_append]
  cases List.find? (fun p => decide (p.1 = k)) m <;> simp

theorem alGet_map_update_self (m : List (κ × ν)) (k : κ) (v : ν) :
    alGet (m.map (fun p => if p.1 = k then (k, v) else p)) k
      = (alGet m k).map (fun _ => v) := by
  induction m with
  | nil => rfl
  | cons p m ih =>
    by_cases hp : p.1 = k
    · simp only [List.map_cons, if_pos hp, alGet_cons]
      simp
    · simp only [List.map_cons, if_neg hp, alGet_cons, ih]

theorem alGet_map_update_ne (m : List (κ × ν)) (k k' : κ) (v : ν) (h : k' ≠ k) :
    alGet (m.map (fun p => if p.1 = k then (k, v) else p)) k' = alGet m k' := by
  induction m with
  | nil => rfl
  | cons p m ih =>
    by_cases hp : p.1 = k
    · simp only [List.map_cons, if_pos hp, alGet_cons, ih]
      rw [if_neg (fun hh => h hh.symm), if_neg (fun hh : p.1 = k' => h (hp ▸ hh).symm)]
    · simp only [List.map_cons, if_neg hp, alGet_cons, ih]

theorem alGet_isNone_of_not_has (m : List (κ × ν)) (k : κ) (h : alHas m k = false) :
    alGet m k = none := by
  unfold alHas at h
  cases hg : alGet m k
  · rfl
  · rw [hg] at h
    simp at h

theorem alGet_alSet_self (m : List (κ × ν)) (k : κ) (v : ν) :
    alGet (alSet m k v) k = some v := by
  unfold alSet
  split
  · rename_i h
    rw [alGet_map_update_self]
    unfold alHas at h
    cases hg : alGet m k
    · rw [hg] at h
      simp at h
    · rfl
  · rename_i h
    rw [alGet_append, alGet_isNone_of_not_has m k (by simpa using h)]
    simp [alGet_cons]

theorem alGet_alSet_ne (m : List (κ × ν)) (k k' : κ) (v : ν) (h : k' ≠ k) :
    alGet (alSet m k v) k' = alGet m k' := by
  unfold alSet
  split
  · exact alGet_map_update_ne m k k' v h
  · rw [alGet_append]
    have h1 : alGet [(k, v)] k' = none := by
      rw [alGet_cons, if_neg (fun hh : k = k' => h hh.symm)]
      rfl
    rw [h1]
    cases alGet m k' <;> rfl

@[simp] theorem mem_setAdd (s : List κ) (x y : κ) :
    y ∈ setAdd s x ↔ y ∈ s ∨ y = x := by
  unfold setAdd
  split
  · rename_i h
    constructor
    · exact Or.inl
    · rintro (h' | rfl) <;> [exact h'; exact h]
  · simp

end AListHelpers

/-! ### Graph data model (§3 of the spec, `Node`/`Edge` of the source) -/

/-- An edge of the input graph (`Edge` of reactflow: only the fields the
layout engine reads for leveling). -/
structure GEdge where
  source : String
  target : String
deriving DecidableEq, Repr

/-- `if (!map.has(k)) map.set(k, new Set())` (lines 74–85). -/
def alEnsure (m : List (String × List String)) (k : String) :
    List (String × List String) :=
  if alHas m k then m else alSet m k []

/-- One `edges.forEach` step of lines 73–91. -/
def adjStep (acc : List (String × List String) × List (String × List String))
    (edge : GEdge) :
    List (String × List String) × List (String × List String) :=
  let adj := alEnsure (alEnsure acc.1 edge.source) edge.target
  let radj := alEnsure (alEnsure acc.2 edge.target) edge.source
  let adj := alSet adj edge.source (setAdd ((alGet adj edge.source).getD []) edge.target)
  let radj := alSet radj edge.target (setAdd ((alGet radj edge.target).getD []) edge.source)
  (adj, radj)

/-- Mirrors `NetworkGraph.tsx` lines 70–91: build `adjacencyList` (forward)
and `reverseAdjacencyList` from the edge list.  Note the source performs no
check that `edge.source`/`edge.target` are ids of actual nodes. -/
def buildAdjacencyLists (edges : List GEdge) :
    List (String × List String) × List (String × List String) :=
  edges.foldl adjStep ([], [])

/-! ### Bottom-up level assignment (`NetworkGraph.tsx` lines 106–189) -/

/-- The mutable state of the level-assignment walk: the `visited` set, the
`levels` map (node id → level) and the `levelNodes` buckets (level → ids). -/
structure LvlState where
  visited : List String
  levels : List (String × Int)
  levelNodes : List (Int × List String)
deriving Repr

/-- `levels.get(nodeId) || 0` (JS `||` sends both `undefined` and `0` to `0`). -/
def lvlGetD (st : LvlState) (x : String) : Int :=
  (alGet st.levels x).getD 0

/-- Bucket of a level (`levelNodes.get(l)`), defaulting to the empty list. -/
def bucketD (st : LvlState) (l : Int) : List String :=
  (alGet st.levelNodes l).getD []

/-- `if (!levelNodes.has(level)) levelNodes.set(level, []); levelNodes.get(level)?.push(x)`. -/
def bucketPush (b : List (Int × List String)) (l : Int) (x : String) :
    List (Int × List String) :=
  alSet b l (((alGet b l).getD []) ++ [x])

/-- `levelNodes.set(prev, prevLevelNodes.filter(id => id !== nodeId))`
(lines 133–135); the key `prev` stays in the map even if the bucket
becomes empty. -/
def bucketRemove (b : List (Int × List String)) (l : Int) (x : String) :
    List (Int × List String) :=
  alSet b l (((alGet b l).getD []).filter (fun i => decide (i ≠ x)))

/-- The body of a (re)assignment (lines 131–145): drop the node from its old
bucket if already visited, then record the new level. -/
def processNode (st : LvlState) (nodeId : String) (level : Int) : LvlState :=
  let st1 := if nodeId ∈ st.visited then
      { st with levelNodes := bucketRemove st.levelNodes (lvlGetD st nodeId) nodeId }
    else st
  { visited := setAdd st1.visited nodeId
    levels := alSet st1.levels nodeId level
    levelNodes := bucketPush st1.levelNodes level nodeId }

/-- `Array.from(parents).forEach(parentId => walk(parentId, level - 1))`
for a given one-step walk function `f`. -/
def assignParentsWith (f : String → Int → LvlState → Option LvlState) :
    List String → Int → LvlState → Option LvlState
  | [], _, st => some st
  | p :: ps, level, st =>
    match f p (level - 1) st with
    | none => none
    | some st' => assignParentsWith f ps level st'

/-- Mirrors the recursive `assignLevelsBottomUp` (lines 126–155).  `fuel`
bounds the recursion depth; `none` means the bound was exceeded (the source
has no such bound and overflows the call stack instead). -/
def assignLevelsBottomUp (radj : String → List String) :
    ℕ → String → Int → LvlState → Option LvlState
  | 0 => fun _ _ _ => none
  | fuel + 1 => fun nodeId level st =>
    if nodeId ∉ st.visited ∨ lvlGetD st nodeId > level then
      assignParentsWith (assignLevelsBottomUp radj fuel) (radj nodeId) level
        (processNode st nodeId level)
    else
      some st

/-- The walk over a list of parents at the given recursion-depth bound. -/
def assignParents (radj : String → List String) (fuel : ℕ) :
    List String → Int → LvlState → Option LvlState :=
  assignParentsWith (assignLevelsBottomUp radj fuel)

/-- Seeding a leaf (lines 116–123) and the fallback placement (lines
171–187) share this shape: record the level and mark visited. -/
def placeNodeAt (st : LvlState) (nodeId : String) (level : Int) : LvlState :=
  { visited := setAdd st.visited nodeId
    levels := alSet st.levels nodeId level
    levelNodes := bucketPush st.levelNodes level nodeId }

/-- Lines 167–189: unvisited roots go to level 0, other unvisited nodes to
`Math.floor(maxLevel / 2) = 500`. -/
def fallbackPass (nodeIds rootNodes : List String) (st : LvlState) : LvlState :=
  nodeIds.foldl
    (fun st nid =>
      if nid ∈ st.visited then st
      else if nid ∈ rootNodes then placeNodeAt st nid 0
      else placeNodeAt st nid 500)
    st

/-- Lines 191–218: compress the used level numbers to consecutive indices
starting at 0 (`usedLevels` sorted ascending), rebuilding the buckets and
updating the per-node levels map. -/
def normalizeState (st : LvlState) : LvlState :=
  let usedLevels := (st.levelNodes.map Prod.fst).insertionSort (fun a b => a ≤ b)
  let normOf : Int → Int := fun l =>
    if l ∈ usedLevels then ((usedLevels.indexOf l : ℕ) : Int) else 0
  let folded := st.levelNodes.foldl
    (fun (acc : List (Int × List String) × List (String × Int)) bucket =>
      let nl := normOf bucket.1
      (alSet acc.1 nl (((alGet acc.1 nl).getD []) ++ bucket.2),
       bucket.2.foldl (fun lv nid => alSet lv nid nl) acc.2))
    ([], st.levels)
  { st with levels := folded.2, levelNodes := folded.1 }

/-- `adjacencyList.get(x)` as a total function (missing key = empty set). -/
def adjacencyOf (edges : List GEdge) (x : String) : List String :=
  (alGet (buildAdjacencyLists edges).1 x).getD []

/-- `reverseAdjacencyList.get(x)` as a total function. -/
def reverseAdjacencyOf (edges : List GEdge) (x : String) : List String :=
  (alGet (buildAdjacencyLists edges).2 x).getD []

/-- Lines 94–96: nodes with out-degree 0 (`!has(id) || size === 0`). -/
def leafNodesOf (nodeIds : List String) (edges : List GEdge) : List String :=
  nodeIds.filter (fun nid => (adjacencyOf edges nid).isEmpty)

/-- Lines 99–101: nodes with in-degree 0. -/
def rootNodesOf (nodeIds : List String) (edges : List GEdge) : List String :=
  nodeIds.filter (fun nid => (reverseAdjacencyOf edges nid).isEmpty)

/-- The level-assignment stage of `applyTreeLayout` (lines 56–218), from the
raw node ids and edges to the normalized level state.  `none` = the
bottom-up walk exceeded the `fuel` recursion-depth bound. -/
def treeLevelState (fuel : ℕ) (nodeIds : List String) (edges : List GEdge) :
    Option LvlState :=
  let radjF := reverseAdjacencyOf edges
  let leafNodes := leafNodesOf nodeIds edges
  let rootNodes := rootNodesOf nodeIds edges
  let st0 := leafNodes.foldl (fun st nid => placeNodeAt st nid 1000) ⟨[], [], []⟩
  match leafNodes.foldlM (fun st nid => assignParents radjF fuel (radjF nid) 1000 st) st0 with
  | none => none
  | some st1 => some (normalizeState (fallbackPass nodeIds rootNodes st1))

/-! ### Graph-level predicates used by the leveling proofs -/

/-- There is an edge from `s` to `t` in the edge list. -/
def edgeRel (edges : List GEdge) (s t : String) : Prop :=
  ∃ e ∈ edges, e.source = s ∧ e.target = t

/-- `x` reaches `y` through zero or more forward edges. -/
def Reaches (edges : List GEdge) : String → String → Prop :=
  Relation.ReflTransGen (edgeRel edges)

/-- All edge targets are settled relative to an exempt list `X`: a visited
target outside `X` has a visited source with a strictly smaller level. -/
def SettledX (edges : List GEdge) (X : List String) (st : LvlState) : Prop :=
  ∀ e ∈ edges, e.target ∉ X → e.target ∈ st.visited →
    e.source ∈ st.visited ∧ lvlGetD st e.source < lvlGetD st e.target

/-- Every key present in the bucket map has a non-empty bucket. -/
def KeysOk (st : LvlState) : Prop :=
  ∀ (lv : Int) (b : List String), alGet st.levelNodes lv = some b → b ≠ []

/-- Levels of visited nodes never exceed the leaf sentinel 1000. -/
def LvlBound (st : LvlState) : Prop :=
  ∀ x ∈ st.visited, lvlGetD st x ≤ 1000

/-- A node is in a bucket exactly when it is visited with that level. -/
def Consist (st : LvlState) : Prop :=
  ∀ (x : String) (lv : Int),
    x ∈ bucketD st lv ↔ (x ∈ st.visited ∧ alGet st.levels x = some lv)

/-- Every visited node has a recorded level. -/
def VisLvl (st : LvlState) : Prop :=
  ∀ x ∈ st.visited, ∃ lv, alGet st.levels x = some lv

/-- The bucket keys are pairwise distinct. -/
def KeysNodup (st : LvlState) : Prop :=
  (st.levelNodes.map Prod.fst).Nodup

/-- The invariant bundle of the level-assignment state, relative to the
node-id universe `ids`. -/
def StInv (ids : List String) (st : LvlState) : Prop :=
  KeysOk st ∧ LvlBound st ∧ Consist st ∧ VisLvl st ∧ KeysNodup st ∧
    (∀ x ∈ st.visited, x ∈ ids)

/-- Every level in `(l, 1000]` holds a witness that does not reach `n`
(such a witness cannot be moved by the walk rooted at `n`). -/
def PreOcc (edges : List GEdge) (n : String) (l : Int) (st : LvlState) : Prop :=
  ∀ m : Int, l < m → m ≤ 1000 → ∃ w, w ∈ bucketD st m ∧ ¬ Reaches edges w n

/-! ### Width estimation (`estimateNodeWidth`, lines 229–268) -/

/-- The longest line of a label: lines 238–246 (split on line breaks when
present, otherwise the label itself). -/
def longestLineLength (label : String) : ℕ :=
  if label.contains '\n' then
    (label.splitOn "\n").foldl (fun m line => max m line.length) 0
  else label.length

/-- The keys of `CLASS_STYLES` (lines 27–47). -/
def classStyleNames : List String := ["stanceNode", "factorNode", "title"]

/-- Mirrors the width computation of lines 237–267 (the part of
`estimateNodeWidth` that depends only on the node's label and class):
`max(180, longestLine * 8.5)`, raised to a per-class minimum for
`factorNode` / `stanceNode`, plus 32 padding. -/
def estimateNodeWidth (label : String) (className : Option String) : ℚ :=
  let maxLineLength := longestLineLength label
  let estimatedWidth : ℚ := max 180 ((maxLineLength : ℚ) * (17 / 2))
  let estimatedWidth :=
    match className with
    | some c =>
      if c ∈ classStyleNames then
        if c = "factorNode" then max estimatedWidth 200
        else if c = "stanceNode" then max estimatedWidth 180
        else estimatedWidth
      else estimatedWidth
    | none => estimatedWidth
  estimatedWidth + 32

/-- The per-category minimum width as the spec states it (200 for
`factorNode`, 180 for `stanceNode`, none otherwise). -/
def categoryMinWidth : Option String → ℚ
  | some c => if c = "factorNode" then 200 else if c = "stanceNode" then 180 else 0
  | none => 0

/-- The width formula in the spec's words (§4.2 / claim C6): longest line
times 8.5, floored at 180, raised to the category minimum, plus 32. -/
def estimateWidthSpec (label : String) (category : Option String) : ℚ :=
  max (max 180 ((longestLineLength label : ℚ) * (17 / 2))) (categoryMinWidth category) + 32

/-! ### Horizontal positioning within one level (lines 306–370) -/

/-- An entry of the `positions` array (line 316). -/
structure PosEntry where
  id : String
  centerX : ℚ
  width : ℚ
deriving Repr

/-- `Math.max(baseSpacing, 1200 / (nodesInLevel.length || 1))` (lines 309–313). -/
def adaptiveSpacing (count : ℕ) : ℚ :=
  max 220 (1200 / (if count = 0 then 1 else (count : ℚ)))

/-- Mirrors lines 316–370: center-x positions of one level's nodes around
the central axis (odd counts center the middle node on the axis; even
counts leave a gap of one spacing in the middle). -/
def levelPositions (estW : String → ℚ) (centralAxis : ℚ) (ids : List String) :
    List PosEntry :=
  let spacing := adaptiveSpacing ids.length
  if ids.length % 2 = 1 then
    (List.range ids.length).map (fun i =>
      let middleIndex := ids.length / 2
      let c :=
        if i = middleIndex then centralAxis
        else if i < middleIndex then
          centralAxis - ((middleIndex : ℚ) - (i : ℚ)) * spacing
        else
          centralAxis + ((i : ℚ) - (middleIndex : ℚ)) * spacing
      ⟨ids.getD i "", c, estW (ids.getD i "")⟩)
  else if ids.length > 0 then
    (List.range ids.length).map (fun i =>
      let halfCount := ids.length / 2
      let c :=
        if i < halfCount then
          centralAxis - (((halfCount : ℚ) - (i : ℚ)) - 1 / 2) * spacing
        else
          centralAxis + (((i : ℚ) - (halfCount : ℚ)) + 1 / 2) * spacing
      ⟨ids.getD i "", c, estW (ids.getD i "")⟩)
  else []

/-! ### Edge polarity classification (lines 640–683) -/

/-- The fields of a rendered edge that the polarity check reads:
`edge.type`, `edge.data.isNegative`, `edge.data.negative`, `edge.label`
(`none` models an absent/non-string value). -/
structure REdge where
  type : Option String
  dataIsNegative : Option Bool
  dataNegative : Option Bool
  label : Option String
deriving Repr

/-- JS `String.prototype.includes` (substring containment). -/
def strIncludes (s sub : String) : Bool :=
  decide (sub.data <:+: s.data)

/-- JS `String.prototype.toLowerCase` (per-character lower-casing). -/
def strToLower (s : String) : String :=
  ⟨s.data.map Char.toLower⟩

/-- Mirrors the `isNegative` classification (lines 652–657): type contains
`--x` or `---`, or an explicit boolean data flag is `true`, or the
lower-cased label contains `x`. -/
def isNegative (edge : REdge) : Bool :=
  let edgeType := edge.type.getD ""
  strIncludes edgeType "--x" || strIncludes edgeType "---" ||
  (edge.dataIsNegative == some true) ||
  (edge.dataNegative == some true) ||
  (match edge.label with
   | some l => strIncludes (strToLower l) "x"
   | none => false)

/-! ### Spline edge path (`SplineEdge.tsx` lines 26–44, plus the
`curveBasis` generator of the external `d3-shape` dependency) -/

/-- A segment of an SVG-like path. -/
inductive PathSeg where
  | move (p : ℚ × ℚ)
  | lineTo (p : ℚ × ℚ)
  | bezierTo (c1 c2 p : ℚ × ℚ)
deriving Repr

/-- State of the d3-shape `Basis` curve generator (`_x0,_y0,_x1,_y1,_point`). -/
structure BasisState where
  x0 : ℚ
  y0 : ℚ
  x1 : ℚ
  y1 : ℚ
  pt : ℕ
deriving Repr

/-- The `point(that, x, y)` helper of d3-shape's basis curve: one cubic
Bézier segment ending at `(x0 + 4*x1 + x)/6`. -/
def basisBezier (s : BasisState) (x y : ℚ) : PathSeg :=
  .bezierTo ((2 * s.x0 + s.x1) / 3, (2 * s.y0 + s.y1) / 3)
    ((s.x0 + 2 * s.x1) / 3, (s.y0 + 2 * s.y1) / 3)
    ((s.x0 + 4 * s.x1 + x) / 6, (s.y0 + 4 * s.y1 + y) / 6)

/-- One `point(x, y)` step of d3-shape's basis curve generator (models the
external dependency's `Basis.prototype.point`). -/
def basisPoint (st : BasisState × List PathSeg) (p : ℚ × ℚ) :
    BasisState × List PathSeg :=
  let s := st.1
  let segs :=
    match s.pt with
    | 0 => st.2 ++ [.move p]
    | 1 => st.2
    | 2 => st.2 ++ [.lineTo ((5 * s.x0 + s.x1) / 6, (5 * s.y0 + s.y1) / 6),
                    basisBezier s p.1 p.2]
    | _ => st.2 ++ [basisBezier s p.1 p.2]
  (⟨s.x1, s.y1, p.1, p.2, min (s.pt + 1) 3⟩, segs)

/-- The `lineEnd()` step of d3-shape's basis curve generator: emit the
closing segments, ending with a line to the last input point. -/
def basisLineEnd (st : BasisState × List PathSeg) : List PathSeg :=
  let s := st.1
  match s.pt with
  | 3 => st.2 ++ [basisBezier s s.x1 s.y1, .lineTo (s.x1, s.y1)]
  | 2 => st.2 ++ [.lineTo (s.x1, s.y1)]
  | _ => st.2

/-- The path produced by d3-shape's `line().curve(curveBasis)` on a list of
control points. -/
def curveBasisPath (pts : List (ℚ × ℚ)) : List PathSeg :=
  basisLineEnd (pts.foldl basisPoint (⟨0, 0, 0, 0, 0⟩, []))

/-- The four control points of `SplineEdge` (lines 26–36): source, a point
at the source's x and the vertical midpoint, a point at the target's x and
the vertical midpoint, target. -/
def splinePoints (sourceX sourceY targetX targetY : ℚ) : List (ℚ × ℚ) :=
  let offset := (targetY - sourceY) / 2
  [(sourceX, sourceY), (sourceX, sourceY + offset),
   (targetX, targetY - offset), (targetX, targetY)]

/-- The full edge path of `SplineEdge` (lines 38–40). -/
def splineEdgePath (sourceX sourceY targetX targetY : ℚ) : List PathSeg :=
  curveBasisPath (splinePoints sourceX sourceY targetX targetY)

/-- First point of a path (where rendering starts). -/
def pathStart : List PathSeg → Option (ℚ × ℚ)
  | .move p :: _ => some p
  | _ => none

/-- End point of a path segment. -/
def segEnd : PathSeg → ℚ × ℚ
  | .move p => p
  | .lineTo p => p
  | .bezierTo _ _ p => p

/-- Last point of a path (where rendering ends). -/
def pathEnd (segs : List PathSeg) : Option (ℚ × ℚ) :=
  segs.getLast?.map segEnd

/-! ### Force-directed layout (`applyForceLayout`, lines 399–538)

Float arithmetic is modelled over `ℚ` with abstract parameters for
`Math.sqrt`, `Math.cos`, `Math.sin` and `Math.PI`.  Division is *checked*:
`qdiv` returns `none` when the denominator is zero — exactly the situations
in which the JS code would produce `NaN`/`Infinity` — so a `some` result
certifies that every division the code performs was guarded. -/

/-- A node as the force layout sees it: id and mutable position. -/
structure FNode where
  id : String
  x : ℚ
  y : ℚ
deriving Repr

/-- Checked division: `none` models a zero denominator (the `NaN`/`Infinity`
producer of JS float division). -/
def qdiv (a b : ℚ) : Option ℚ :=
  if b = 0 then none else some (a / b)

/-- `Option`-valued `mapM` with plain structural recursion. -/
def mapMOpt {α β : Type} (f : α → Option β) : List α → Option (List β)
  | [] => some []
  | a :: as =>
    match f a, mapMOpt f as with
    | some b, some bs => some (b :: bs)
    | _, _ => none

/-- `nodeMap.get(id)`: with duplicate ids a JS `Map` keeps the last entry. -/
def nodeById (ps : List FNode) (i : String) : Option FNode :=
  ps.reverse.find? (fun nd => decide (nd.id = i))

/-- Lines 416–424: place the nodes on a circle of radius
`min(600, max(300, n*20))` around the center `(800, 400)`. -/
def forceInit (co si : ℚ → ℚ) (piv : ℚ) (nodes : List FNode) :
    Option (List FNode) :=
  let n := nodes.length
  let radius : ℚ := min 600 (max 300 ((n : ℚ) * 20))
  mapMOpt
    (fun p => do
      let frac ← qdiv (p.1 : ℚ) (n : ℚ)
      let angle := frac * 2 * piv
      pure { p.2 with x := 800 + radius * co angle, y := 400 + radius * si angle })
    nodes.enum

/-- The ordered index pairs `(i, j)` with `i < j` of the nested repulsion
loops (lines 458–484). -/
def pairList (n : ℕ) : List (ℕ × ℕ) :=
  (List.range n).flatMap
    (fun i => ((List.range n).filter (fun j => decide (i < j))).map (fun j => (i, j)))

/-- One repulsive interaction (lines 462–483): force `k²/distance` along
the joining line, distance floored at `0.1`. -/
def repulsionStep (sq : ℚ → ℚ) (k : ℚ) (ps : List FNode)
    (disp : List (String × (ℚ × ℚ))) (pair : ℕ × ℕ) :
    Option (List (String × (ℚ × ℚ))) := do
  let node1 := ps.getD pair.1 ⟨"", 0, 0⟩
  let node2 := ps.getD pair.2 ⟨"", 0, 0⟩
  let dx := node1.x - node2.x
  let dy := node1.y - node2.y
  let distance := max (1 / 10) (sq (dx * dx + dy * dy))
  let force ← qdiv (k * k) distance
  let fx ← qdiv (force * dx) distance
  let fy ← qdiv (force * dy) distance
  let d1 := (alGet disp node1.id).getD (0, 0)
  let disp := alSet disp node1.id (d1.1 + fx, d1.2 + fy)
  let d2 := (alGet disp node2.id).getD (0, 0)
  pure (alSet disp node2.id (d2.1 - fx, d2.2 - fy))

/-- One attractive interaction along an edge (lines 487–513): force
`distance²/k`, skipped when either endpoint id has no node. -/
def attractionStep (sq : ℚ → ℚ) (k : ℚ) (ps : List FNode)
    (disp : List (String × (ℚ × ℚ))) (edge : GEdge) :
    Option (List (String × (ℚ × ℚ))) :=
  match nodeById ps edge.source, nodeById ps edge.target with
  | some source, some target => do
    let dx := source.x - target.x
    let dy := source.y - target.y
    let distance := max (1 / 10) (sq (dx * dx + dy * dy))
    let force ← qdiv (distance * distance) k
    let fx ← qdiv (force * dx) distance
    let fy ← qdiv (force * dy) distance
    let dS := (alGet disp edge.source).getD (0, 0)
    let disp := alSet disp edge.source (dS.1 - fx, dS.2 - fy)
    let dT := (alGet disp edge.target).getD (0, 0)
    pure (alSet disp edge.target (dT.1 + fx, dT.2 + fy))
  | _, _ => pure disp

/-- Lines 516–534: add gravity toward the center, cap the displacement
magnitude at `15 * damping`, and move the node (only when the magnitude is
positive). -/
def updateNode (sq : ℚ → ℚ) (damping : ℚ) (disp : List (String × (ℚ × ℚ)))
    (nd : FNode) : Option FNode :=
  let d := (alGet disp nd.id).getD (0, 0)
  let dx := d.1 - (nd.x - 800) * (1 / 20)
  let dy := d.2 - (nd.y - 400) * (1 / 20)
  let magnitude := sq (dx * dx + dy * dy)
  let limitedMagnitude := min magnitude (15 * damping)
  if 0 < magnitude then do
    let ux ← qdiv dx magnitude
    let uy ← qdiv dy magnitude
    pure { nd with x := nd.x + ux * limitedMagnitude, y := nd.y + uy * limitedMagnitude }
  else
    pure nd

/-- The fixed iteration count of the force simulation (line 441). -/
def forceIterations : ℕ := 100

/-- One iteration of the Fruchterman–Reingold loop (lines 447–535). -/
def forceIteration (sq : ℚ → ℚ) (edges : List GEdge) (k : ℚ) (i : ℕ)
    (ps : List FNode) : Option (List FNode) := do
  let r ← qdiv (i : ℚ) (forceIterations : ℚ)
  let damping := (8 / 10) * (1 - r)
  let disp0 := ps.foldl (fun d nd => alSet d nd.id ((0 : ℚ), (0 : ℚ))) []
  let disp1 ← (pairList ps.length).foldlM (repulsionStep sq k ps) disp0
  let disp2 ← edges.foldlM (attractionStep sq k ps) disp1
  mapMOpt (updateNode sq damping disp2) ps

/-- Mirrors `applyForceLayout` (lines 399–538) over the abstract float
model: circle initialization, then 100 force iterations.  `none` would mean
some division hit a zero denominator. -/
def applyForceLayout (sq co si : ℚ → ℚ) (piv : ℚ) (nodes : List FNode)
    (edges : List GEdge) : Option (List FNode) :=
  if nodes.isEmpty then some [] else do
    let init ← forceInit co si piv nodes
    let k0 ← qdiv 1000000 (nodes.length : ℚ)
    let k := sq k0
    (List.range forceIterations).foldlM
      (fun ps i => forceIteration sq edges k i ps) init

/-! ### Basic state lemmas -/

theorem processNode_visited (st : LvlState) (n : String) (l : Int) :
    (processNode st n l).visited = setAdd st.visited n := by
  unfold processNode
  split <;> rfl

theorem processNode_levels (st : LvlState) (n : String) (l : Int) :
    (processNode st n l).levels = alSet st.levels n l := by
  unfold processNode
  split <;> rfl

theorem mem_visited_processNode (st : LvlState) (n y : String) (l : Int) :
    y ∈ (processNode st n l).visited ↔ y ∈ st.visited ∨ y = n := by
  rw [processNode_visited, mem_setAdd]

theorem lvlGetD_processNode_self (st : LvlState) (n : String) (l : Int) :
    lvlGetD (processNode st n l) n = l := by
  unfold lvlGetD
  rw [processNode_levels, alGet_alSet_self]
  rfl

theorem lvlGetD_processNode_ne (st : LvlState) (n y : String) (l : Int) (h : y ≠ n) :
    lvlGetD (processNode st n l) y = lvlGetD st y := by
  unfold lvlGetD
  rw [processNode_levels, alGet_alSet_ne _ _ _ _ h]

/-! ### Claim C1: the bottom-up walk on a cycle reachable from a leaf

The graph `A → B, B → A, B → C` has the single leaf `C`; the walk from `C`
re-processes `A` and `B` with a strictly smaller proposed level on every
revisit, so the recursion never terminates at any depth bound. -/

def cycNodes : List String := ["A", "B", "C"]

def cycEdges : List GEdge := [⟨"A", "B"⟩, ⟨"B", "A"⟩, ⟨"B", "C"⟩]

def cycRadjF : String → List String :=
  reverseAdjacencyOf cycEdges

/-- The state after seeding the single leaf `C` at level 1000. -/
def cycSt0 : LvlState :=
  ⟨["C"], [("C", 1000)], [(1000, ["C"])]⟩

theorem cyc_assign_none :
    ∀ (f : ℕ) (x y : String) (l : Int) (st : LvlState),
      ((x = "A" ∧ y = "B") ∨ (x = "B" ∧ y = "A")) →
      (x ∉ st.visited ∨ lvlGetD st x > l) →
      (y ∉ st.visited ∨ lvlGetD st y ≥ l) →
      assignLevelsBottomUp cycRadjF f x l st = none := by
  intro f
  induction f with
  | zero => intro x y l st _ _ _; rw [assignLevelsBottomUp]
  | succ f ih =>
    intro x y l st hxy hx hy
    have hne : x ≠ y := by
      rcases hxy with ⟨hx1, hy1⟩ | ⟨hx1, hy1⟩ <;> subst hx1 <;> subst hy1 <;> decide
    have hradj : cycRadjF x = [y] := by
      rcases hxy with ⟨hx1, hy1⟩ | ⟨hx1, hy1⟩ <;> subst hx1 <;> subst hy1 <;> rfl
    have hrec : assignLevelsBottomUp cycRadjF f y (l - 1) (processNode st x l) = none := by
      apply ih y x (l - 1) (processNode st x l)
      · rcases hxy with ⟨hx1, hy1⟩ | ⟨hx1, hy1⟩
        · exact Or.inr ⟨hy1, hx1⟩
        · exact Or.inl ⟨hy1, hx1⟩
      · rcases hy with hy | hy
        · refine Or.inl ?_
          rw [mem_visited_processNode]
          rintro (h | h)
          · exact hy h
          · exact hne h.symm
        · refine Or.inr ?_
          rw [lvlGetD_processNode_ne st x y l (fun h => hne h.symm)]
          omega
      · refine Or.inr ?_
        rw [lvlGetD_processNode_self]
        omega
    rw [assignLevelsBottomUp]
    dsimp only
    rw [if_pos hx, hradj, assignParentsWith, hrec]

/-! ### Adjacency-map lemmas -/

theorem alHas_alSet_iff {κ ν : Type} [DecidableEq κ] (m : List (κ × ν)) (k k' : κ) (v : ν) :
    alHas (alSet m k v) k' = true ↔ alHas m k' = true ∨ k' = k := by
  by_cases hk : k' = k
  · subst hk
    simp [alHas, alGet_alSet_self]
  · rw [alHas, alGet_alSet_ne _ _ _ _ hk]
    simp [alHas, hk]

theorem alHas_alEnsure_iff (m : List (String × List String)) (k k' : String) :
    alHas (alEnsure m k) k' = true ↔ alHas m k' = true ∨ k' = k := by
  unfold alEnsure
  split
  · rename_i h
    constructor
    · exact Or.inl
    · rintro (h' | rfl)
      · exact h'
      · exact h
  · exact alHas_alSet_iff m k k' []

theorem alGet_getD_alEnsure (m : List (String × List String)) (k k' : String) :
    ((alGet (alEnsure m k) k').getD []) = ((alGet m k').getD []) := by
  unfold alEnsure
  split
  · rfl
  · rename_i h
    by_cases hk : k' = k
    · subst hk
      rw [alGet_alSet_self, alGet_isNone_of_not_has m k' (by simpa using h)]
      rfl
    · rw [alGet_alSet_ne _ _ _ _ hk]

theorem adjStep_fst_getD (acc : List (String × List String) × List (String × List String))
    (e : GEdge) (s : String) :
    ((alGet (adjStep acc e).1 s).getD []) =
      if s = e.source then setAdd ((alGet acc.1 s).getD []) e.target
      else ((alGet acc.1 s).getD []) := by
  unfold adjStep
  dsimp only
  by_cases hse : s = e.source
  · subst hse
    rw [if_pos rfl, alGet_alSet_self, Option.getD_some, alGet_getD_alEnsure,
      alGet_getD_alEnsure]
  · rw [if_neg hse, alGet_alSet_ne _ _ _ _ hse, alGet_getD_alEnsure, alGet_getD_alEnsure]

theorem adjStep_snd_getD (acc : List (String × List String) × List (String × List String))
    (e : GEdge) (t : String) :
    ((alGet (adjStep acc e).2 t).getD []) =
      if t = e.target then setAdd ((alGet acc.2 t).getD []) e.source
      else ((alGet acc.2 t).getD []) := by
  unfold adjStep
  dsimp only
  by_cases hte : t = e.target
  · subst hte
    rw [if_pos rfl, alGet_alSet_self, Option.getD_some, alGet_getD_alEnsure,
      alGet_getD_alEnsure]
  · rw [if_neg hte, alGet_alSet_ne _ _ _ _ hte, alGet_getD_alEnsure, alGet_getD_alEnsure]

theorem adjStep_fst_has (acc : List (String × List String) × List (String × List String))
    (e : GEdge) (s : String) :
    alHas (adjStep acc e).1 s = true ↔
      alHas acc.1 s = true ∨ s = e.source ∨ s = e.target := by
  unfold adjStep
  dsimp only
  rw [alHas_alSet_iff, alHas_alEnsure_iff, alHas_alEnsure_iff]
  tauto

theorem adjStep_snd_has (acc : List (String × List String) × List (String × List String))
    (e : GEdge) (s : String) :
    alHas (adjStep acc e).2 s = true ↔
      alHas acc.2 s = true ∨ s = e.source ∨ s = e.target := by
  unfold adjStep
  dsimp only
  rw [alHas_alSet_iff, alHas_alEnsure_iff, alHas_alEnsure_iff]
  tauto

/-- Membership in a forward neighbour set of the built adjacency map,
characterized by the edge list. -/
theorem foldl_adjStep_fst_mem (edges : List GEdge)
    (acc : List (String × List String) × List (String × List String)) (s t : String) :
    (t ∈ ((alGet (edges.foldl adjStep acc).1 s).getD []) ↔
      t ∈ ((alGet acc.1 s).getD []) ∨ ∃ e ∈ edges, e.source = s ∧ e.target = t) := by
  induction edges generalizing acc with
  | nil => simp
  | cons e rest ih =>
    rw [List.foldl_cons, ih, adjStep_fst_getD]
    simp only [List.mem_cons]
    by_cases hse : s = e.source
    · rw [if_pos hse, mem_setAdd]
      constructor
      · rintro ((h | rfl) | ⟨e', he', hs', ht'⟩)
        · exact Or.inl h
        · exact Or.inr ⟨e, Or.inl rfl, hse.symm, rfl⟩
        · exact Or.inr ⟨e', Or.inr he', hs', ht'⟩
      · rintro (h | ⟨e', (rfl | he'), hs', ht'⟩)
        · exact Or.inl (Or.inl h)
        · exact Or.inl (Or.inr ht'.symm)
        · exact Or.inr ⟨e', he', hs', ht'⟩
    · rw [if_neg hse]
      constructor
      · rintro (h | ⟨e', he', hs', ht'⟩)
        · exact Or.inl h
        · exact Or.inr ⟨e', Or.inr he', hs', ht'⟩
      · rintro (h | ⟨e', (rfl | he'), hs', ht'⟩)
        · exact Or.inl h
        · exact absurd hs'.symm hse
        · exact Or.inr ⟨e', he', hs', ht'⟩

/-- Membership in a reverse neighbour set of the built adjacency map,
characterized by the edge list. -/
theorem foldl_adjStep_snd_mem (edges : List GEdge)
    (acc : List (String × List String) × List (String × List String)) (t s : String) :
    (s ∈ ((alGet (edges.foldl adjStep acc).2 t).getD []) ↔
      s ∈ ((alGet acc.2 t).getD []) ∨ ∃ e ∈ edges, e.source = s ∧ e.target = t) := by
  induction edges generalizing acc with
  | nil => simp
  | cons e rest ih =>
    rw [List.foldl_cons, ih, adjStep_snd_getD]
    simp only [List.mem_cons]
    by_cases hte : t = e.target
    · rw [if_pos hte, mem_setAdd]
      constructor
      · rintro ((h | rfl) | ⟨e', he', hs', ht'⟩)
        · exact Or.inl h
        · exact Or.inr ⟨e, Or.inl rfl, rfl, hte.symm⟩
        · exact Or.inr ⟨e', Or.inr he', hs', ht'⟩
      · rintro (h | ⟨e', (rfl | he'), hs', ht'⟩)
        · exact Or.inl (Or.inl h)
        · exact Or.inl (Or.inr hs'.symm)
        · exact Or.inr ⟨e', he', hs', ht'⟩
    · rw [if_neg hte]
      constructor
      · rintro (h | ⟨e', he', hs', ht'⟩)
        · exact Or.inl h
        · exact Or.inr ⟨e', Or.inr he', hs', ht'⟩
      · rintro (h | ⟨e', (rfl | he'), hs', ht'⟩)
        · exact Or.inl h
        · exact absurd ht'.symm hte
        · exact Or.inr ⟨e', he', hs', ht'⟩

/-- Key presence in the built adjacency maps, characterized by the edge
list (both maps hold a key for every id occurring in any edge). -/
theorem foldl_adjStep_has (edges : List GEdge)
    (acc : List (String × List String) × List (String × List String)) (s : String) :
    ((alHas (edges.foldl adjStep acc).1 s = true ↔
       alHas acc.1 s = true ∨ ∃ e ∈ edges, s = e.source ∨ s = e.target)
    ∧ (alHas (edges.foldl adjStep acc).2 s = true ↔
       alHas acc.2 s = true ∨ ∃ e ∈ edges, s = e.source ∨ s = e.target)) := by
  induction edges generalizing acc with
  | nil => simp
  | cons e rest ih =>
    rw [List.foldl_cons]
    refine ⟨?_, ?_⟩ <;>
      [rw [(ih (adjStep acc e)).1, adjStep_fst_has];
       rw [(ih (adjStep acc e)).2, adjStep_snd_has]] <;>
      · simp only [List.mem_cons]
        constructor
        · rintro ((h | h | h) | ⟨e', he', h'⟩)
          · exact Or.inl h
          · exact Or.inr ⟨e, Or.inl rfl, Or.inl h⟩
          · exact Or.inr ⟨e, Or.inl rfl, Or.inr h⟩
          · exact Or.inr ⟨e', Or.inr he', h'⟩
        · rintro (h | ⟨e', (rfl | he'), h'⟩)
          · exact Or.inl (Or.inl h)
          · rcases h' with h' | h'
            · exact Or.inl (Or.inr (Or.inl h'))
            · exact Or.inl (Or.inr (Or.inr h'))
          · exact Or.inr ⟨e', he', h'⟩

/-- **C4** counterexample: for the single edge `A → G` (with `G` a dangling
id, the node list being `[A]`), the adjacency build does NOT skip the edge:
both maps acquire an entry keyed by the dangling id `G`, and `G` is added
to the existing endpoint `A`'s forward neighbour set. -/
theorem adjacency_dangling_counterexample :
    alHas (buildAdjacencyLists [⟨"A", "G"⟩]).1 "G" = true ∧
    alHas (buildAdjacencyLists [⟨"A", "G"⟩]).2 "G" = true ∧
    "G" ∈ ((alGet (buildAdjacencyLists [⟨"A", "G"⟩]).1 "A").getD []) := by
  refine ⟨rfl, rfl, ?_⟩
  decide

/-- **C4** (amended): building the adjacency maps performs no dangling-id
check at all — for every edge in the list (dangling or not) both endpoint
ids become keys of both maps and the edge is recorded in the forward and
reverse neighbour sets; the tree layout nevertheless completes on a graph
with a dangling intermediate id (here `A → G → L` with nodes `[A, L]`). -/
theorem buildAdjacencyLists_no_skip :
    (∀ (edges : List GEdge) (e : GEdge), e ∈ edges →
      alHas (buildAdjacencyLists edges).1 e.source = true ∧
      alHas (buildAdjacencyLists edges).1 e.target = true ∧
      alHas (buildAdjacencyLists edges).2 e.source = true ∧
      alHas (buildAdjacencyLists edges).2 e.target = true ∧
      e.target ∈ ((alGet (buildAdjacencyLists edges).1 e.source).getD []) ∧
      e.source ∈ ((alGet (buildAdjacencyLists edges).2 e.target).getD []))
    ∧ (treeLevelState 10 ["A", "L"] [⟨"A", "G"⟩, ⟨"G", "L"⟩]).isSome = true := by
  constructor
  · intro edges e he
    unfold buildAdjacencyLists
    refine ⟨?_, ?_, ?_, ?_, ?_, ?_⟩
    · exact (foldl_adjStep_has edges ([], []) e.source).1.mpr
        (Or.inr ⟨e, he, Or.inl rfl⟩)
    · exact (foldl_adjStep_has edges ([], []) e.target).1.mpr
        (Or.inr ⟨e, he, Or.inr rfl⟩)
    · exact (foldl_adjStep_has edges ([], []) e.source).2.mpr
        (Or.inr ⟨e, he, Or.inl rfl⟩)
    · exact (foldl_adjStep_has edges ([], []) e.target).2.mpr
        (Or.inr ⟨e, he, Or.inr rfl⟩)
    · exact (foldl_adjStep_fst_mem edges ([], []) e.source e.target).mpr
        (Or.inr ⟨e, he, rfl, rfl⟩)
    · exact (foldl_adjStep_snd_mem edges ([], []) e.target e.source).mpr
        (Or.inr ⟨e, he, rfl, rfl⟩)
  · decide

/-- Witness for **C4**'s amended theorem at a concrete dangling edge. -/
theorem buildAdjacencyLists_no_skip_witness :
    "G" ∈ ((alGet (buildAdjacencyLists [⟨"A", "G"⟩, ⟨"G", "L"⟩]).1 "A").getD []) :=
  (buildAdjacencyLists_no_skip.1 [⟨"A", "G"⟩, ⟨"G", "L"⟩] ⟨"A", "G"⟩
    (by decide)).2.2.2.2.1

/-- **C5** counterexample: an edge with no type marker and no data flags
whose label is the single uppercase letter `X` is classified negative by
the code (the label is lower-cased first), yet the label does not contain
a lowercase `x` substring, so the claim's if-and-only-if fails. -/
theorem isNegative_uppercase_counterexample :
    isNegative ⟨none, none, none, some "X"⟩ = true ∧ strIncludes "X" "x" = false := by
  exact ⟨rfl, rfl⟩

/-- **C5** (amended): with no negative marker in the type string and no
boolean data flag set to `true`, an edge is classified negative iff its
lower-cased label contains an `x` (i.e. the label contains `x` or `X`);
an edge matching any earlier criterion is negative regardless of label. -/
theorem isNegative_label_heuristic :
    (∀ e : REdge,
        strIncludes (e.type.getD "") "--x" = false →
        strIncludes (e.type.getD "") "---" = false →
        e.dataIsNegative ≠ some true →
        e.dataNegative ≠ some true →
        (isNegative e = true ↔
          ∃ l, e.label = some l ∧ strIncludes (strToLower l) "x" = true))
    ∧ (∀ e : REdge,
        (strIncludes (e.type.getD "") "--x" = true ∨
         strIncludes (e.type.getD "") "---" = true ∨
         e.dataIsNegative = some true ∨
         e.dataNegative = some true) →
        isNegative e = true) := by
  constructor
  · intro e h1 h2 h3 h4
    have h3' : (e.dataIsNegative == some true) = false := by
      cases hv : e.dataIsNegative with
      | none => rfl
      | some b =>
        cases b
        · rfl
        · exact absurd hv h3
    have h4' : (e.dataNegative == some true) = false := by
      cases hv : e.dataNegative with
      | none => rfl
      | some b =>
        cases b
        · rfl
        · exact absurd hv h4
    unfold isNegative
    dsimp only
    rw [h1, h2, h3', h4']
    simp only [Bool.false_or]
    cases hl : e.label with
    | none => simp
    | some l => simp

  · intro e h
    unfold isNegative
    dsimp only
    rcases h with h | h | h | h <;> simp [h]

/-- Witness for **C5**'s amended theorem at concrete edges. -/
theorem isNegative_label_heuristic_witness :
    isNegative ⟨none, none, none, some "aXb"⟩ = true ∧
    isNegative ⟨some "A--xB", none, none, none⟩ = true := by
  constructor
  · exact (isNegative_label_heuristic.1 ⟨none, none, none, some "aXb"⟩
      rfl rfl (by simp) (by simp)).mpr ⟨"aXb", rfl, rfl⟩
  · exact isNegative_label_heuristic.2 ⟨some "A--xB", none, none, none⟩ (Or.inl rfl)

/-- **C6** (confirmed): the estimated width equals the longest line's
character count times 8.5, floored at 180, raised to the per-category
minimum (200 for `factorNode`, 180 for `stanceNode`), plus 32 padding; the
function is deterministic. -/
theorem estimateNodeWidth_spec :
    (∀ (label : String) (category : Option String),
        estimateNodeWidth label category = estimateWidthSpec label category)
    ∧ (∀ (label : String) (category : Option String),
        estimateNodeWidth label category = estimateNodeWidth label category) := by
  refine ⟨?_, fun _ _ => rfl⟩
  intro label category
  have hb : (0 : ℚ) ≤ max 180 ((longestLineLength label : ℚ) * (17 / 2)) :=
    le_trans (by norm_num) (le_max_left _ _)
  unfold estimateNodeWidth estimateWidthSpec categoryMinWidth
  dsimp only
  rcases category with _ | c
  · rw [max_eq_left hb]
  · by_cases hf : c = "factorNode"
    · subst hf
      simp [classStyleNames]
    · by_cases hs : c = "stanceNode"
      · subst hs
        simp [classStyleNames]
      · by_cases ht : c ∈ classStyleNames
        · simp only [ht, if_true, if_neg hf, if_neg hs, max_eq_left hb]
        · simp only [ht, if_false, if_neg hf, if_neg hs, max_eq_left hb]

/-- **C9** (confirmed): the spline edge path is built from exactly the four
control points source, (source.x, mid-height), (target.x, mid-height),
target, and the generated basis-spline path starts exactly at the source
point and ends exactly at the target point. -/
theorem splineEdgePath_endpoints :
    ∀ sourceX sourceY targetX targetY : ℚ,
      splinePoints sourceX sourceY targetX targetY =
        [(sourceX, sourceY), (sourceX, (sourceY + targetY) / 2),
         (targetX, (sourceY + targetY) / 2), (targetX, targetY)] ∧
      (splinePoints sourceX sourceY targetX targetY).length = 4 ∧
      pathStart (splineEdgePath sourceX sourceY targetX targetY) = some (sourceX, sourceY) ∧
      pathEnd (splineEdgePath sourceX sourceY targetX targetY) = some (targetX, targetY) := by
  intro sx sy tx ty
  refine ⟨?_, rfl, rfl, rfl⟩
  unfold splinePoints
  dsimp only
  have h1 : sy + (ty - sy) / 2 = (sy + ty) / 2 := by ring
  have h2 : ty - (ty - sy) / 2 = (sy + ty) / 2 := by ring
  rw [h1, h2]

theorem getD_range_map {α : Type} (f : ℕ → α) (n i : ℕ) (d : α) (h : i < n) :
    (((List.range n).map f).getD i d) = f i := by
  rw [List.getD_eq_getElem?_getD, List.getElem?_map, List.getElem?_range h]
  rfl

theorem adaptiveSpacing_pos (n : ℕ) : 0 < adaptiveSpacing n :=
  lt_of_lt_of_le (by norm_num) (le_max_left _ _)

/-- **C7** (confirmed): in a level of odd size the node at the middle rank
sits exactly on the central axis and is the only one that does (rank
distance `d` is offset by `d * spacing`); in a level of even size every
rank `i` is offset by `(i - half + 0.5) * spacing` and no center lies on
the axis. -/
theorem levelPositions_symmetry :
    ∀ (estW : String → ℚ) (axis : ℚ) (ids : List String) (i : ℕ), i < ids.length →
      (ids.length % 2 = 1 →
        (((levelPositions estW axis ids).getD i ⟨"", 0, 0⟩).centerX
            = axis + ((i : ℚ) - ((ids.length / 2 : ℕ) : ℚ)) * adaptiveSpacing ids.length)
        ∧ (((levelPositions estW axis ids).getD i ⟨"", 0, 0⟩).centerX = axis
            ↔ i = ids.length / 2))
      ∧ (ids.length % 2 = 0 →
        (((levelPositions estW axis ids).getD i ⟨"", 0, 0⟩).centerX
            = axis + (((i : ℚ) - ((ids.length / 2 : ℕ) : ℚ)) + 1 / 2)
                * adaptiveSpacing ids.length)
        ∧ ((levelPositions estW axis ids).getD i ⟨"", 0, 0⟩).centerX ≠ axis) := by
  intro estW axis ids i hi
  have hs := adaptiveSpacing_pos ids.length
  constructor
  · intro hodd
    have hcenter : ((levelPositions estW axis ids).getD i ⟨"", 0, 0⟩).centerX
        = axis + ((i : ℚ) - ((ids.length / 2 : ℕ) : ℚ)) * adaptiveSpacing ids.length := by
      unfold levelPositions
      dsimp only
      rw [if_pos hodd, getD_range_map _ _ _ _ hi]
      dsimp only
      by_cases hm : i = ids.length / 2
      · rw [if_pos hm, hm]
        ring
      · rw [if_neg hm]
        by_cases hlt : i < ids.length / 2
        · rw [if_pos hlt]
          ring
        · rw [if_neg hlt]
    refine ⟨hcenter, ?_⟩
    rw [hcenter]
    constructor
    · intro hc
      have hz : ((i : ℚ) - ((ids.length / 2 : ℕ) : ℚ)) * adaptiveSpacing ids.length = 0 := by
        linarith
      rcases mul_eq_zero.mp hz with hz | hz
      · have : (i : ℚ) = ((ids.length / 2 : ℕ) : ℚ) := by linarith
        exact_mod_cast this
      · exact absurd hz (ne_of_gt hs)
    · intro hm
      rw [hm]
      ring
  · intro heven
    have hnodd : ¬ ids.length % 2 = 1 := by omega
    have hcenter : ((levelPositions estW axis ids).getD i ⟨"", 0, 0⟩).centerX
        = axis + (((i : ℚ) - ((ids.length / 2 : ℕ) : ℚ)) + 1 / 2)
            * adaptiveSpacing ids.length := by
      unfold levelPositions
      dsimp only
      rw [if_neg hnodd, if_pos (by omega : ids.length > 0), getD_range_map _ _ _ _ hi]
      dsimp only
      by_cases hlt : i < ids.length / 2
      · rw [if_pos hlt]
        ring
      · rw [if_neg hlt]
    refine ⟨hcenter, ?_⟩
    rw [hcenter]
    intro hc
    have hz : (((i : ℚ) - ((ids.length / 2 : ℕ) : ℚ)) + 1 / 2) * adaptiveSpacing ids.length
        = 0 := by linarith
    rcases mul_eq_zero.mp hz with hz | hz
    · have h2 : ((2 * i + 1 : ℕ) : ℚ) = ((2 * (ids.length / 2) : ℕ) : ℚ) := by
        push_cast
        linarith
      have h3 : 2 * i + 1 = 2 * (ids.length / 2) := by exact_mod_cast h2
      omega
    · exact absurd hz (ne_of_gt hs)

/-- Witness for **C7** at a concrete odd level (3 nodes: the middle rank 1
sits on the axis) and even level (2 nodes: rank 0 sits half a spacing left
of the axis). -/
theorem levelPositions_symmetry_witness :
    ((levelPositions (fun _ => 180) 600 ["a", "b", "c"]).getD 1 ⟨"", 0, 0⟩).centerX = 600 ∧
    ((levelPositions (fun _ => 180) 600 ["a", "b"]).getD 0 ⟨"", 0, 0⟩).centerX ≠ 600 := by
  constructor
  · exact ((levelPositions_symmetry (fun _ => 180) 600 ["a", "b", "c"] 1
      (by decide)).1 (by decide)).2.mpr (by decide)
  · exact ((levelPositions_symmetry (fun _ => 180) 600 ["a", "b"] 0
      (by decide)).2 (by decide)).2

/-! ### Reachability, rank and adjacency characterization -/

theorem mem_adjacencyOf_iff (edges : List GEdge) (s t : String) :
    t ∈ adjacencyOf edges s ↔ edgeRel edges s t := by
  unfold adjacencyOf buildAdjacencyLists edgeRel
  rw [foldl_adjStep_fst_mem]
  simp

theorem mem_reverseAdjacencyOf_iff (edges : List GEdge) (t s : String) :
    s ∈ reverseAdjacencyOf edges t ↔ edgeRel edges s t := by
  unfold reverseAdjacencyOf buildAdjacencyLists edgeRel
  rw [foldl_adjStep_snd_mem]
  simp

theorem reaches_rank_le (edges : List GEdge) (rank : String → ℕ)
    (hrank : ∀ e ∈ edges, rank e.source < rank e.target) (x y : String)
    (h : Reaches edges x y) : rank x ≤ rank y := by
  induction h with
  | refl => exact le_refl _
  | tail _ hstep ih =>
    obtain ⟨e, he, hs, ht⟩ := hstep
    have h2 := hrank e he
    rw [hs, ht] at h2
    exact le_trans ih h2.le

theorem not_reaches_of_edge (edges : List GEdge) (rank : String → ℕ)
    (hrank : ∀ e ∈ edges, rank e.source < rank e.target) (p n : String)
    (hpn : edgeRel edges p n) : ¬ Reaches edges n p := by
  intro hr
  have h1 := reaches_rank_le edges rank hrank n p hr
  obtain ⟨e, he, hs, ht⟩ := hpn
  have h2 := hrank e he
  rw [hs, ht] at h2
  omega

theorem reaches_tail (edges : List GEdge) (x p n : String)
    (hx : Reaches edges x p) (hpn : edgeRel edges p n) : Reaches edges x n :=
  Relation.ReflTransGen.tail hx hpn

theorem reaches_refl (edges : List GEdge) (x : String) : Reaches edges x x :=
  Relation.ReflTransGen.refl

/-! ### Bucket and state-update lemmas -/

theorem bucketPush_get_self (b : List (Int × List String)) (l : Int) (x : String) :
    alGet (bucketPush b l x) l = some (((alGet b l).getD []) ++ [x]) :=
  alGet_alSet_self b l _

theorem bucketPush_get_ne (b : List (Int × List String)) (l lv : Int) (x : String)
    (h : lv ≠ l) : alGet (bucketPush b l x) lv = alGet b lv :=
  alGet_alSet_ne b l lv _ h

theorem bucketRemove_get_self (b : List (Int × List String)) (l : Int) (x : String) :
    alGet (bucketRemove b l x) l
      = some (((alGet b l).getD []).filter (fun i => decide (i ≠ x))) :=
  alGet_alSet_self b l _

theorem bucketRemove_get_ne (b : List (Int × List String)) (l lv : Int) (x : String)
    (h : lv ≠ l) : alGet (bucketRemove b l x) lv = alGet b lv :=
  alGet_alSet_ne b l lv _ h

theorem mem_bucketPush (b : List (Int × List String)) (l lv : Int) (x y : String) :
    (y ∈ (alGet (bucketPush b l x) lv).getD [] ↔
      y ∈ (alGet b lv).getD [] ∨ (y = x ∧ lv = l)) := by
  by_cases hlv : lv = l
  · subst hlv
    rw [bucketPush_get_self]
    simp [List.mem_append]
  · rw [bucketPush_get_ne _ _ _ _ hlv]
    simp [hlv]

theorem mem_bucketRemove (b : List (Int × List String)) (l lv : Int) (x y : String) :
    (y ∈ (alGet (bucketRemove b l x) lv).getD [] ↔
      y ∈ (alGet b lv).getD [] ∧ ¬ (y = x ∧ lv = l)) := by
  by_cases hlv : lv = l
  · subst hlv
    rw [bucketRemove_get_self]
    simp [List.mem_filter]
  · rw [bucketRemove_get_ne _ _ _ _ hlv]
    simp [hlv]

theorem alHas_iff_mem_keys {κ ν : Type} [DecidableEq κ] (m : List (κ × ν)) (k : κ) :
    alHas m k = true ↔ k ∈ m.map Prod.fst := by
  induction m with
  | nil => simp [alHas]
  | cons p m ih =>
    unfold alHas at ih ⊢
    rw [alGet_cons]
    by_cases hp : p.1 = k
    · simp [hp]
    · rw [if_neg hp]
      simp only [List.map_cons, List.mem_cons]
      rw [ih]
      constructor
      · exact Or.inr
      · rintro (h | h)
        · exact absurd h.symm hp
        · exact h

theorem alSet_keys {κ ν : Type} [DecidableEq κ] (m : List (κ × ν)) (k : κ) (v : ν) :
    (alSet m k v).map Prod.fst
      = if alHas m k then m.map Prod.fst else m.map Prod.fst ++ [k] := by
  unfold alSet
  split
  · rw [List.map_map]
    apply List.map_congr_left
    intro p _
    by_cases hp : p.1 = k
    · simp [hp]
    · simp [hp]
  · simp

theorem alSet_keys_nodup {κ ν : Type} [DecidableEq κ] (m : List (κ × ν)) (k : κ) (v : ν)
    (h : (m.map Prod.fst).Nodup) : ((alSet m k v).map Prod.fst).Nodup := by
  rw [alSet_keys]
  split
  · exact h
  · rename_i hh
    have hk : k ∉ m.map Prod.fst := by
      intro hmem
      exact hh ((alHas_iff_mem_keys m k).mpr hmem)
    simp only [List.nodup_append, List.nodup_cons, List.nodup_nil]
    refine ⟨h, by simp, ?_⟩
    intro a ha
    simp only [List.mem_singleton]
    intro hc
    subst hc
    exact hk ha

theorem processNode_levelNodes (st : LvlState) (n : String) (l : Int) :
    (processNode st n l).levelNodes =
      if n ∈ st.visited then
        bucketPush (bucketRemove st.levelNodes (lvlGetD st n) n) l n
      else bucketPush st.levelNodes l n := by
  unfold processNode
  split <;> rfl

theorem mem_bucketD_processNode_ne (st : LvlState) (n : String) (l : Int)
    (y : String) (hy : y ≠ n) (lv : Int) :
    (y ∈ bucketD (processNode st n l) lv ↔ y ∈ bucketD st lv) := by
  unfold bucketD
  rw [processNode_levelNodes]
  split
  · rw [show (alGet (bucketPush (bucketRemove st.levelNodes (lvlGetD st n) n) l n) lv).getD []
        = (alGet (bucketPush (bucketRemove st.levelNodes (lvlGetD st n) n) l n) lv).getD []
      from rfl]
    constructor
    · intro hmem
      have h1 := (mem_bucketPush _ _ _ _ _).mp hmem
      rcases h1 with h1 | ⟨h1, _⟩
      · exact ((mem_bucketRemove _ _ _ _ _).mp h1).1
      · exact absurd h1 hy
    · intro hmem
      refine (mem_bucketPush _ _ _ _ _).mpr (Or.inl ?_)
      exact (mem_bucketRemove _ _ _ _ _).mpr ⟨hmem, fun hcx => hy hcx.1⟩
  · constructor
    · intro hmem
      rcases (mem_bucketPush _ _ _ _ _).mp hmem with h1 | ⟨h1, _⟩
      · exact h1
      · exact absurd h1 hy
    · intro hmem
      exact (mem_bucketPush _ _ _ _ _).mpr (Or.inl hmem)

/-! ### Monotonicity, frame and termination of the bottom-up walk -/

theorem assign_mono (radj : String → List String) :
    ∀ (f : ℕ) (n : String) (l : Int) (st st' : LvlState),
      assignLevelsBottomUp radj f n l st = some st' →
      ((∀ x ∈ st.visited, x ∈ st'.visited ∧ lvlGetD st' x ≤ lvlGetD st x)
        ∧ (n ∈ st'.visited ∧ lvlGetD st' n ≤ l)) := by
  intro f
  induction f with
  | zero =>
    intro n l st st' h
    exact absurd h (by rw [assignLevelsBottomUp]; simp)
  | succ f ih =>
    have parents_mono : ∀ (ps : List String) (l' : Int) (s s' : LvlState),
        assignParentsWith (assignLevelsBottomUp radj f) ps l' s = some s' →
        ∀ x ∈ s.visited, x ∈ s'.visited ∧ lvlGetD s' x ≤ lvlGetD s x := by
      intro ps
      induction ps with
      | nil =>
        intro l' s s' h x hx
        rw [assignParentsWith] at h
        cases h
        exact ⟨hx, le_refl _⟩
      | cons p ps ihp =>
        intro l' s s' h x hx
        rw [assignParentsWith] at h
        cases hstep : assignLevelsBottomUp radj f p (l' - 1) s with
        | none => rw [hstep] at h; cases h
        | some s1 =>
          rw [hstep] at h
          have h1 := (ih p (l' - 1) s s1 hstep).1 x hx
          have h2 := ihp l' s1 s' h x h1.1
          exact ⟨h2.1, le_trans h2.2 h1.2⟩
    intro n l st st' h
    rw [assignLevelsBottomUp] at h
    dsimp only at h
    by_cases hc : n ∉ st.visited ∨ lvlGetD st n > l
    · rw [if_pos hc] at h
      constructor
      · intro x hx
        have hx1 : x ∈ (processNode st n l).visited := by
          rw [mem_visited_processNode]
          exact Or.inl hx
        have hlx : lvlGetD (processNode st n l) x ≤ lvlGetD st x := by
          by_cases hxn : x = n
          · subst hxn
            rw [lvlGetD_processNode_self]
            rcases hc with hc | hc
            · exact absurd hx hc
            · exact hc.le
          · rw [lvlGetD_processNode_ne st n x l hxn]
        have hres := parents_mono (radj n) l _ _ h x hx1
        exact ⟨hres.1, le_trans hres.2 hlx⟩
      · have hn1 : n ∈ (processNode st n l).visited := by
          rw [mem_visited_processNode]
          exact Or.inr rfl
        have hres := parents_mono (radj n) l _ _ h n hn1
        refine ⟨hres.1, ?_⟩
        calc lvlGetD st' n ≤ lvlGetD (processNode st n l) n := hres.2
          _ = l := lvlGetD_processNode_self st n l
    · rw [if_neg hc] at h
      cases h
      push_neg at hc
      exact ⟨fun x hx => ⟨hx, le_refl _⟩, hc.1, hc.2⟩

theorem assignParents_mono (radj : String → List String) (f : ℕ) :
    ∀ (ps : List String) (l : Int) (s s' : LvlState),
      assignParentsWith (assignLevelsBottomUp radj f) ps l s = some s' →
      ∀ x ∈ s.visited, x ∈ s'.visited ∧ lvlGetD s' x ≤ lvlGetD s x := by
  intro ps
  induction ps with
  | nil =>
    intro l s s' h x hx
    rw [assignParentsWith] at h
    cases h
    exact ⟨hx, le_refl _⟩
  | cons p ps ihp =>
    intro l s s' h x hx
    rw [assignParentsWith] at h
    cases hstep : assignLevelsBottomUp radj f p (l - 1) s with
    | none => rw [hstep] at h; cases h
    | some s1 =>
      rw [hstep] at h
      have h1 := (assign_mono radj f p (l - 1) s s1 hstep).1 x hx
      have h2 := ihp l s1 s' h x h1.1
      exact ⟨h2.1, le_trans h2.2 h1.2⟩

theorem assign_frame (edges : List GEdge) :
    ∀ (f : ℕ) (n : String) (l : Int) (st st' : LvlState),
      assignLevelsBottomUp (reverseAdjacencyOf edges) f n l st = some st' →
      ∀ x, ¬ Reaches edges x n →
        ((x ∈ st'.visited ↔ x ∈ st.visited)
          ∧ alGet st'.levels x = alGet st.levels x
          ∧ ∀ lv : Int, (x ∈ bucketD st' lv ↔ x ∈ bucketD st lv)) := by
  intro f
  induction f with
  | zero =>
    intro n l st st' h
    exact absurd h (by rw [assignLevelsBottomUp]; simp)
  | succ f ih =>
    have parents_frame : ∀ (ps : List String) (n0 : String),
        (∀ p ∈ ps, edgeRel edges p n0) →
        ∀ (l' : Int) (s s' : LvlState),
        assignParentsWith (assignLevelsBottomUp (reverseAdjacencyOf edges) f) ps l' s
          = some s' →
        ∀ x, ¬ Reaches edges x n0 →
          ((x ∈ s'.visited ↔ x ∈ s.visited)
            ∧ alGet s'.levels x = alGet s.levels x
            ∧ ∀ lv : Int, (x ∈ bucketD s' lv ↔ x ∈ bucketD s lv)) := by
      intro ps
      induction ps with
      | nil =>
        intro n0 _ l' s s' h x _
        rw [assignParentsWith] at h
        cases h
        exact ⟨Iff.rfl, rfl, fun _ => Iff.rfl⟩
      | cons p ps ihp =>
        intro n0 hsub l' s s' h x hx
        rw [assignParentsWith] at h
        cases hstep : assignLevelsBottomUp (reverseAdjacencyOf edges) f p (l' - 1) s with
        | none => rw [hstep] at h; cases h
        | some s1 =>
          rw [hstep] at h
          have hxp : ¬ Reaches edges x p := by
            intro hr
            exact hx (reaches_tail edges x p n0 hr (hsub p (List.mem_cons_self p ps)))
          have h1 := ih p (l' - 1) s s1 hstep x hxp
          have h2 := ihp n0 (fun q hq => hsub q (List.mem_cons_of_mem p hq)) l' s1 s' h x hx
          exact ⟨h2.1.trans h1.1, h2.2.1.trans h1.2.1,
            fun lv => (h2.2.2 lv).trans (h1.2.2 lv)⟩
    intro n l st st' h
    rw [assignLevelsBottomUp] at h
    dsimp only at h
    by_cases hc : n ∉ st.visited ∨ lvlGetD st n > l
    · rw [if_pos hc] at h
      intro x hx
      have hxn : x ≠ n := fun hxe => hx (hxe ▸ reaches_refl edges x)
      have hproc : (x ∈ (processNode st n l).visited ↔ x ∈ st.visited)
          ∧ alGet (processNode st n l).levels x = alGet st.levels x
          ∧ ∀ lv : Int, (x ∈ bucketD (processNode st n l) lv ↔ x ∈ bucketD st lv) := by
        refine ⟨?_, ?_, fun lv => mem_bucketD_processNode_ne st n l x hxn lv⟩
        · rw [mem_visited_processNode]
          constructor
          · rintro (h' | h')
            · exact h'
            · exact absurd h' hxn
          · exact Or.inl
        · rw [processNode_levels]
          exact alGet_alSet_ne _ _ _ _ hxn
      have hfold := parents_frame (reverseAdjacencyOf edges n) n
        (fun p hp => (mem_reverseAdjacencyOf_iff edges n p).mp hp) l _ _ h x hx
      exact ⟨hfold.1.trans hproc.1, hfold.2.1.trans hproc.2.1,
        fun lv => (hfold.2.2 lv).trans (hproc.2.2 lv)⟩
    · rw [if_neg hc] at h
      cases h
      exact fun x _ => ⟨Iff.rfl, rfl, fun _ => Iff.rfl⟩

theorem assignParents_frame (edges : List GEdge) (f : ℕ) (ps : List String) (n0 : String)
    (hsub : ∀ p ∈ ps, edgeRel edges p n0) :
    ∀ (l : Int) (s s' : LvlState),
      assignParentsWith (assignLevelsBottomUp (reverseAdjacencyOf edges) f) ps l s
        = some s' →
      ∀ x, ¬ Reaches edges x n0 →
        ((x ∈ s'.visited ↔ x ∈ s.visited)
          ∧ alGet s'.levels x = alGet s.levels x
          ∧ ∀ lv : Int, (x ∈ bucketD s' lv ↔ x ∈ bucketD s lv)) := by
  induction ps with
  | nil =>
    intro l s s' h x _
    rw [assignParentsWith] at h
    cases h
    exact ⟨Iff.rfl, rfl, fun _ => Iff.rfl⟩
  | cons p ps ihp =>
    intro l s s' h x hx
    rw [assignParentsWith] at h
    cases hstep : assignLevelsBottomUp (reverseAdjacencyOf edges) f p (l - 1) s with
    | none => rw [hstep] at h; cases h
    | some s1 =>
      rw [hstep] at h
      have hxp : ¬ Reaches edges x p := by
        intro hr
        exact hx (reaches_tail edges x p n0 hr (hsub p (List.mem_cons_self p ps)))
      have h1 := assign_frame edges f p (l - 1) s s1 hstep x hxp
      have h2 := ihp (fun q hq => hsub q (List.mem_cons_of_mem p hq)) l s1 s' h x hx
      exact ⟨h2.1.trans h1.1, h2.2.1.trans h1.2.1,
        fun lv => (h2.2.2 lv).trans (h1.2.2 lv)⟩

theorem assign_isSome (edges : List GEdge) (rank : String → ℕ)
    (hrank : ∀ e ∈ edges, rank e.source < rank e.target) :
    ∀ (f : ℕ) (n : String) (l : Int) (st : LvlState), rank n < f →
      (assignLevelsBottomUp (reverseAdjacencyOf edges) f n l st).isSome = true := by
  intro f
  induction f with
  | zero => intro n l st h; omega
  | succ f ih =>
    have parents_some : ∀ (ps : List String) (n0 : String),
        (∀ p ∈ ps, edgeRel edges p n0) → rank n0 ≤ f →
        ∀ (l' : Int) (s : LvlState),
        (assignParentsWith (assignLevelsBottomUp (reverseAdjacencyOf edges) f) ps l' s).isSome
          = true := by
      intro ps
      induction ps with
      | nil => intro n0 _ _ l' s; rfl
      | cons p ps ihp =>
        intro n0 hsub hn0 l' s
        rw [assignParentsWith]
        have hrp : rank p < f := by
          have := hsub p (List.mem_cons_self p ps)
          obtain ⟨e, he, hs, ht⟩ := this
          have h2 := hrank e he
          rw [hs, ht] at h2
          omega
        have hstep := ih p (l' - 1) s hrp
        cases hs1 : assignLevelsBottomUp (reverseAdjacencyOf edges) f p (l' - 1) s with
        | none => rw [hs1] at hstep; exact absurd hstep (by simp)
        | some s1 =>
          exact ihp n0 (fun q hq => hsub q (List.mem_cons_of_mem p hq)) hn0 l' s1
    intro n l st hn
    rw [assignLevelsBottomUp]
    dsimp only
    by_cases hc : n ∉ st.visited ∨ lvlGetD st n > l
    · rw [if_pos hc]
      exact parents_some (reverseAdjacencyOf edges n) n
        (fun p hp => (mem_reverseAdjacencyOf_iff edges n p).mp hp) (by omega) l _
    · rw [if_neg hc]
      rfl

theorem assignParents_isSome (edges : List GEdge) (rank : String → ℕ)
    (hrank : ∀ e ∈ edges, rank e.source < rank e.target) (f : ℕ)
    (ps : List String) (hps : ∀ p ∈ ps, rank p < f) :
    ∀ (l : Int) (s : LvlState),
      (assignParentsWith (assignLevelsBottomUp (reverseAdjacencyOf edges) f) ps l s).isSome
        = true := by
  induction ps with
  | nil => intro l s; rfl
  | cons p ps ihp =>
    intro l s
    rw [assignParentsWith]
    have hstep := assign_isSome edges rank hrank f p (l - 1) s
      (hps p (List.mem_cons_self p ps))
    cases hs1 : assignLevelsBottomUp (reverseAdjacencyOf edges) f p (l - 1) s with
    | none => rw [hs1] at hstep; exact absurd hstep (by simp)
    | some s1 =>
      exact ihp (fun q hq => hps q (List.mem_cons_of_mem p hq)) l s1

/-! ### Invariant preservation through one (re)assignment -/

theorem processNode_inv (ids : List String) (st : LvlState) (n : String) (l : Int)
    (hinv : StInv ids st) (hl : l ≤ 1000) (hn : n ∈ ids)
    (hc : n ∉ st.visited ∨ lvlGetD st n > l)
    (hocc : n ∈ st.visited → ∀ m : Int, l < m → m ≤ 1000 → ∃ w, w ∈ bucketD st m ∧ w ≠ n) :
    StInv ids (processNode st n l)
    ∧ alGet (processNode st n l).levels n = some l
    ∧ n ∈ (processNode st n l).visited := by
  obtain ⟨hKeys, hBound, hCons, hVis, hNodup, hSub⟩ := hinv
  have hlevels := processNode_levels st n l
  have hvisited := processNode_visited st n l
  have hbuckets := processNode_levelNodes st n l
  have hgetn : alGet (processNode st n l).levels n = some l := by
    rw [hlevels]
    exact alGet_alSet_self _ _ _
  have hmemn : n ∈ (processNode st n l).visited := by
    rw [mem_visited_processNode]
    exact Or.inr rfl
  refine ⟨⟨?_, ?_, ?_, ?_, ?_, ?_⟩, hgetn, hmemn⟩
  · -- KeysOk
    intro lv b hb
    rw [hbuckets] at hb
    by_cases hvn : n ∈ st.visited
    · rw [if_pos hvn] at hb
      by_cases hlvl : lv = l
      · subst hlvl
        rw [bucketPush_get_self] at hb
        cases hb
        simp
      · rw [bucketPush_get_ne _ _ _ _ hlvl] at hb
        set o := lvlGetD st n with ho
        by_cases hlvo : lv = o
        · subst hlvo
          rw [bucketRemove_get_self] at hb
          cases hb
          have hogt : l < lvlGetD st n := by
            rcases hc with hc | hc
            · exact absurd hvn hc
            · exact hc
          have hole : lvlGetD st n ≤ 1000 := hBound n hvn
          obtain ⟨w, hw, hwn⟩ := hocc hvn (lvlGetD st n) hogt hole
          have hwf : w ∈ ((alGet st.levelNodes (lvlGetD st n)).getD []).filter
              (fun i => decide (i ≠ n)) := by
            rw [List.mem_filter]
            exact ⟨hw, by simpa using hwn⟩
          exact List.ne_nil_of_mem hwf
        · rw [bucketRemove_get_ne _ _ _ _ hlvo] at hb
          exact hKeys lv b hb
    · rw [if_neg hvn] at hb
      by_cases hlvl : lv = l
      · subst hlvl
        rw [bucketPush_get_self] at hb
        cases hb
        simp
      · rw [bucketPush_get_ne _ _ _ _ hlvl] at hb
        exact hKeys lv b hb
  · -- LvlBound
    intro x hx
    rw [hvisited, mem_setAdd] at hx
    by_cases hxn : x = n
    · subst hxn
      unfold lvlGetD
      rw [hgetn]
      exact hl
    · unfold lvlGetD
      rw [hlevels, alGet_alSet_ne _ _ _ _ hxn]
      rcases hx with hx | hx
      · exact hBound x hx
      · exact absurd hx hxn
  · -- Consist
    intro x lv
    by_cases hxn : x = n
    · subst hxn
      constructor
      · intro hmem
        refine ⟨hmemn, ?_⟩
        rw [hgetn]
        unfold bucketD at hmem
        rw [hbuckets] at hmem
        by_cases hvn : x ∈ st.visited
        · rw [if_pos hvn] at hmem
          rcases (mem_bucketPush _ _ _ _ _).mp hmem with h1 | ⟨_, h1⟩
          · exfalso
            rcases (mem_bucketRemove _ _ _ _ _).mp h1 with ⟨h2, h3⟩
            have h4 := (hCons x lv).mp h2
            obtain ⟨lv0, hlv0⟩ := hVis x hvn
            rw [hlv0] at h4
            have hlveq : lv = lv0 := by
              have := h4.2
              cases this
              rfl
            apply h3
            refine ⟨rfl, ?_⟩
            unfold lvlGetD
            rw [hlv0, hlveq]
            rfl
          · rw [h1]
        · rw [if_neg hvn] at hmem
          rcases (mem_bucketPush _ _ _ _ _).mp hmem with h1 | ⟨_, h1⟩
          · exact absurd ((hCons x lv).mp h1).1 hvn
          · rw [h1]
      · rintro ⟨_, hlv⟩
        rw [hgetn] at hlv
        have hlveq : lv = l := by cases hlv; rfl
        subst hlveq
        unfold bucketD
        rw [hbuckets]
        by_cases hvn : x ∈ st.visited
        · rw [if_pos hvn]
          exact (mem_bucketPush _ _ _ _ _).mpr (Or.inr ⟨rfl, rfl⟩)
        · rw [if_neg hvn]
          exact (mem_bucketPush _ _ _ _ _).mpr (Or.inr ⟨rfl, rfl⟩)
    · have hbmem : x ∈ bucketD (processNode st n l) lv ↔ x ∈ bucketD st lv :=
        mem_bucketD_processNode_ne st n l x hxn lv
      rw [hbmem, hCons x lv]
      have hv : x ∈ (processNode st n l).visited ↔ x ∈ st.visited := by
        rw [mem_visited_processNode]
        constructor
        · rintro (h | h)
          · exact h
          · exact absurd h hxn
        · exact Or.inl
      have hlv : alGet (processNode st n l).levels x = alGet st.levels x := by
        rw [hlevels]
        exact alGet_alSet_ne _ _ _ _ hxn
      rw [hv, hlv]
  · -- VisLvl
    intro x hx
    by_cases hxn : x = n
    · subst hxn
      exact ⟨l, hgetn⟩
    · rw [hvisited, mem_setAdd] at hx
      rcases hx with hx | hx
      · obtain ⟨lv, hlv⟩ := hVis x hx
        refine ⟨lv, ?_⟩
        rw [hlevels, alGet_alSet_ne _ _ _ _ hxn]
        exact hlv
      · exact absurd hx hxn
  · -- KeysNodup
    unfold KeysNodup
    rw [hbuckets]
    by_cases hvn : n ∈ st.visited
    · rw [if_pos hvn]
      exact alSet_keys_nodup _ _ _ (alSet_keys_nodup _ _ _ hNodup)
    · rw [if_neg hvn]
      exact alSet_keys_nodup _ _ _ hNodup
  · -- visited ⊆ ids
    intro x hx
    rw [hvisited, mem_setAdd] at hx
    rcases hx with hx | hx
    · exact hSub x hx
    · exact hx ▸ hn

/-- The main preservation lemma of the bottom-up walk: a completed call
keeps the state invariant bundle and the settledness of all edges whose
target is outside the exempt list `X`. -/
theorem assign_main (nodeIds : List String) (edges : List GEdge) (rank : String → ℕ)
    (hrank : ∀ e ∈ edges, rank e.source < rank e.target)
    (hwf : ∀ e ∈ edges, e.source ∈ nodeIds ∧ e.target ∈ nodeIds) :
    ∀ (f : ℕ) (X : List String) (n : String) (l : Int) (st st' : LvlState),
      assignLevelsBottomUp (reverseAdjacencyOf edges) f n l st = some st' →
      l ≤ 1000 → n ∈ nodeIds →
      StInv nodeIds st → SettledX edges X st → PreOcc edges n l st →
      StInv nodeIds st' ∧ SettledX edges X st' := by
  intro f
  induction f with
  | zero =>
    intro X n l st st' h
    exact absurd h (by rw [assignLevelsBottomUp]; simp)
  | succ f ih =>
    intro X n l st st' h hl hn hinv hset hocc
    rw [assignLevelsBottomUp] at h
    dsimp only at h
    by_cases hc : n ∉ st.visited ∨ lvlGetD st n > l
    · rw [if_pos hc] at h
      have hpn := processNode_inv nodeIds st n l hinv hl hn hc
        (fun _ m hm1 hm2 => by
          obtain ⟨w, hw, hwr⟩ := hocc m hm1 hm2
          exact ⟨w, hw, fun he => hwr (he ▸ reaches_refl edges w)⟩)
      obtain ⟨hinv1, hget1, hmem1⟩ := hpn
      have hset1 : SettledX edges (n :: X) (processNode st n l) := by
        intro e he htX htv
        have htn : e.target ≠ n := fun hh => htX (hh ▸ List.mem_cons_self n X)
        have htv0 : e.target ∈ st.visited := by
          rcases (mem_visited_processNode st n _ l).mp htv with h' | h'
          · exact h'
          · exact absurd h' htn
        have hS := hset e he (fun hh => htX (List.mem_cons_of_mem n hh)) htv0
        refine ⟨(mem_visited_processNode st n _ l).mpr (Or.inl hS.1), ?_⟩
        have hlt : lvlGetD (processNode st n l) e.target = lvlGetD st e.target :=
          lvlGetD_processNode_ne st n _ l htn
        rw [hlt]
        by_cases hsn : e.source = n
        · rw [hsn, lvlGetD_processNode_self]
          have hnv : n ∈ st.visited := hsn ▸ hS.1
          have hgt : lvlGetD st n > l := by
            rcases hc with hc | hc
            · exact absurd hnv hc
            · exact hc
          have hlt2 := hS.2
          rw [hsn] at hlt2
          omega
        · rw [lvlGetD_processNode_ne st n _ l hsn]
          exact hS.2
      have hocc1 : ∀ m : Int, l < m → m ≤ 1000 →
          ∃ w, w ∈ bucketD (processNode st n l) m ∧ ¬ Reaches edges w n := by
        intro m hm1 hm2
        obtain ⟨w, hw, hwr⟩ := hocc m hm1 hm2
        have hwn : w ≠ n := fun he => hwr (he ▸ reaches_refl edges w)
        exact ⟨w, (mem_bucketD_processNode_ne st n l w hwn m).mpr hw, hwr⟩
      have hfold : ∀ (ps : List String), (∀ p ∈ ps, edgeRel edges p n) →
          ∀ (s s' : LvlState),
          assignParentsWith (assignLevelsBottomUp (reverseAdjacencyOf edges) f) ps l s
            = some s' →
          StInv nodeIds s → SettledX edges (n :: X) s →
          (∀ m : Int, l < m → m ≤ 1000 → ∃ w, w ∈ bucketD s m ∧ ¬ Reaches edges w n) →
          alGet s.levels n = some l → n ∈ s.visited →
          (StInv nodeIds s' ∧ SettledX edges (n :: X) s'
            ∧ alGet s'.levels n = some l ∧ n ∈ s'.visited
            ∧ ∀ p ∈ ps, p ∈ s'.visited ∧ lvlGetD s' p ≤ l - 1) := by
        intro ps
        induction ps with
        | nil =>
          intro _ s s' hh hI hS _ hg hv
          rw [assignParentsWith] at hh
          cases hh
          exact ⟨hI, hS, hg, hv, by simp⟩
        | cons p ps ihp =>
          intro hsub s s' hh hI hS hP hg hv
          rw [assignParentsWith] at hh
          cases hstep : assignLevelsBottomUp (reverseAdjacencyOf edges) f p (l - 1) s with
          | none => rw [hstep] at hh; cases hh
          | some s1 =>
            rw [hstep] at hh
            have hpe : edgeRel edges p n := hsub p (List.mem_cons_self p ps)
            have hpid : p ∈ nodeIds := by
              obtain ⟨e, he, hs, _⟩ := hpe
              exact hs ▸ (hwf e he).1
            have hnp : ¬ Reaches edges n p := not_reaches_of_edge edges rank hrank p n hpe
            have hPp : PreOcc edges p (l - 1) s := by
              intro m hm1 hm2
              by_cases hml : m = l
              · subst hml
                exact ⟨n, ((hI.2.2.1) n m).mpr ⟨hv, hg⟩, hnp⟩
              · have hm1' : l < m := by omega
                obtain ⟨w, hw, hwr⟩ := hP m hm1' hm2
                exact ⟨w, hw, fun hr => hwr (reaches_tail edges w p n hr hpe)⟩
            have hmain := ih (n :: X) p (l - 1) s s1 hstep (by omega) hpid hI hS hPp
            have hpmono := (assign_mono _ f p (l - 1) s s1 hstep).2
            have hframe := assign_frame edges f p (l - 1) s s1 hstep n hnp
            have hg1 : alGet s1.levels n = some l := hframe.2.1.trans hg
            have hv1 : n ∈ s1.visited := hframe.1.mpr hv
            have hP1 : ∀ m : Int, l < m → m ≤ 1000 →
                ∃ w, w ∈ bucketD s1 m ∧ ¬ Reaches edges w n := by
              intro m hm1 hm2
              obtain ⟨w, hw, hwr⟩ := hP m hm1 hm2
              have hwp : ¬ Reaches edges w p :=
                fun hr => hwr (reaches_tail edges w p n hr hpe)
              have hwframe := assign_frame edges f p (l - 1) s s1 hstep w hwp
              exact ⟨w, (hwframe.2.2 m).mpr hw, hwr⟩
            have hrest := ihp (fun q hq => hsub q (List.mem_cons_of_mem p hq))
              s1 s' hh hmain.1 hmain.2 hP1 hg1 hv1
            refine ⟨hrest.1, hrest.2.1, hrest.2.2.1, hrest.2.2.2.1, ?_⟩
            intro q hq
            rcases List.mem_cons.mp hq with rfl | hq
            · have hqf := assignParents_mono _ f ps l s1 s' hh q hpmono.1
              exact ⟨hqf.1, le_trans hqf.2 hpmono.2⟩
            · exact hrest.2.2.2.2 q hq
      have hres := hfold (reverseAdjacencyOf edges n)
        (fun p hp => (mem_reverseAdjacencyOf_iff edges n p).mp hp) _ _ h hinv1 hset1
        hocc1 hget1 hmem1
      obtain ⟨hinvF, hsetF, hgF, _, hpsF⟩ := hres
      refine ⟨hinvF, ?_⟩
      intro e he htX htv
      by_cases htn : e.target = n
      · have hsrc : e.source ∈ reverseAdjacencyOf edges n := by
          rw [mem_reverseAdjacencyOf_iff]
          exact ⟨e, he, rfl, htn⟩
        have hsp := hpsF e.source hsrc
        refine ⟨hsp.1, ?_⟩
        rw [htn]
        have hspl := hsp.2
        unfold lvlGetD
        rw [hgF]
        simp only [Option.getD_some]
        unfold lvlGetD at hspl
        omega
      · exact hsetF e he
          (fun hh => (List.mem_cons.mp hh).elim (fun h1 => htn h1) (fun h1 => htX h1)) htv
    · rw [if_neg hc] at h
      cases h
      exact ⟨hinv, hset⟩

/-! ### Force-layout safety (C8) -/

theorem qdiv_isSome (a b : ℚ) (h : b ≠ 0) : qdiv a b = some (a / b) := by
  unfold qdiv
  rw [if_neg h]

theorem max_tenth_pos (x : ℚ) : (0 : ℚ) < max (1 / 10) x :=
  lt_of_lt_of_le (by norm_num) (le_max_left _ _)

theorem bind_isSome_of {α β : Type} {x : Option α} {f : α → Option β} {a : α}
    (hx : x = some a) (hf : (f a).isSome = true) : (x >>= f).isSome = true := by
  subst hx
  exact hf

theorem foldlM_option_isSome {α β : Type} (f : β → α → Option β) (l : List α)
    (h : ∀ (acc : β) (a : α), a ∈ l → (f acc a).isSome = true) :
    ∀ init : β, (List.foldlM f init l).isSome = true := by
  induction l with
  | nil => intro init; rfl
  | cons a as ih =>
    intro init
    rw [List.foldlM_cons]
    have ha := h init a (List.mem_cons_self a as)
    cases hfa : f init a with
    | none =>
      rw [hfa] at ha
      exact absurd ha (by simp)
    | some b =>
      exact bind_isSome_of rfl (ih (fun acc x hx => h acc x (List.mem_cons_of_mem a hx)) b)

theorem mapMOpt_isSome {α β : Type} (f : α → Option β) (l : List α)
    (h : ∀ a ∈ l, (f a).isSome = true) : (mapMOpt f l).isSome = true := by
  induction l with
  | nil => rfl
  | cons a as ih =>
    have ha := h a (List.mem_cons_self a as)
    have has := ih (fun x hx => h x (List.mem_cons_of_mem a hx))
    unfold mapMOpt
    cases hfa : f a with
    | none =>
      rw [hfa] at ha
      exact absurd ha (by simp)
    | some b =>
      cases hrest : mapMOpt f as with
      | none =>
        rw [hrest] at has
        exact absurd has (by simp)
      | some bs => rfl

theorem repulsionStep_isSome (sq : ℚ → ℚ) (k : ℚ) (ps : List FNode)
    (disp : List (String × (ℚ × ℚ))) (pair : ℕ × ℕ) :
    (repulsionStep sq k ps disp pair).isSome = true := by
  unfold repulsionStep
  dsimp only
  refine bind_isSome_of (qdiv_isSome _ _ (ne_of_gt (max_tenth_pos _))) ?_
  refine bind_isSome_of (qdiv_isSome _ _ (ne_of_gt (max_tenth_pos _))) ?_
  exact bind_isSome_of (qdiv_isSome _ _ (ne_of_gt (max_tenth_pos _))) rfl

theorem attractionStep_isSome (sq : ℚ → ℚ) (k : ℚ) (hk : k ≠ 0) (ps : List FNode)
    (disp : List (String × (ℚ × ℚ))) (edge : GEdge) :
    (attractionStep sq k ps disp edge).isSome = true := by
  unfold attractionStep
  cases nodeById ps edge.source with
  | none => rfl
  | some source =>
    cases nodeById ps edge.target with
    | none => rfl
    | some target =>
      dsimp only
      refine bind_isSome_of (qdiv_isSome _ _ hk) ?_
      refine bind_isSome_of (qdiv_isSome _ _ (ne_of_gt (max_tenth_pos _))) ?_
      exact bind_isSome_of (qdiv_isSome _ _ (ne_of_gt (max_tenth_pos _))) rfl

theorem updateNode_isSome (sq : ℚ → ℚ) (damping : ℚ)
    (disp : List (String × (ℚ × ℚ))) (nd : FNode) :
    (updateNode sq damping disp nd).isSome = true := by
  unfold updateNode
  dsimp only
  split
  · rename_i hmag
    refine bind_isSome_of (qdiv_isSome _ _ (ne_of_gt hmag)) ?_
    exact bind_isSome_of (qdiv_isSome _ _ (ne_of_gt hmag)) rfl
  · rfl

theorem forceIteration_isSome (sq : ℚ → ℚ) (edges : List GEdge) (k : ℚ)
    (hk : k ≠ 0) (i : ℕ) (ps : List FNode) :
    (forceIteration sq edges k i ps).isSome = true := by
  unfold forceIteration
  refine bind_isSome_of
    (qdiv_isSome _ _ (by norm_num [forceIterations] : ((forceIterations : ℕ) : ℚ) ≠ 0)) ?_
  dsimp only
  have h1 := foldlM_option_isSome (repulsionStep sq k ps) (pairList ps.length)
    (fun acc a _ => repulsionStep_isSome sq k ps acc a)
    (ps.foldl (fun d nd => alSet d nd.id ((0 : ℚ), (0 : ℚ))) [])
  cases hd1 : (pairList ps.length).foldlM (repulsionStep sq k ps)
      (ps.foldl (fun d nd => alSet d nd.id ((0 : ℚ), (0 : ℚ))) []) with
  | none =>
    rw [hd1] at h1
    exact absurd h1 (by simp)
  | some disp1 =>
    refine bind_isSome_of rfl ?_
    have h2 := foldlM_option_isSome (attractionStep sq k ps) edges
      (fun acc a _ => attractionStep_isSome sq k hk ps acc a) disp1
    cases hd2 : edges.foldlM (attractionStep sq k ps) disp1 with
    | none =>
      rw [hd2] at h2
      exact absurd h2 (by simp)
    | some disp2 =>
      refine bind_isSome_of rfl ?_
      exact mapMOpt_isSome _ _ (fun nd _ => updateNode_isSome sq _ disp2 nd)

theorem forceInit_isSome (co si : ℚ → ℚ) (piv : ℚ) (nodes : List FNode)
    (hn : nodes ≠ []) : (forceInit co si piv nodes).isSome = true := by
  have hlen : (0 : ℚ) < (nodes.length : ℚ) := by
    have : 0 < nodes.length := List.length_pos.mpr hn
    exact_mod_cast this
  unfold forceInit
  dsimp only
  refine mapMOpt_isSome _ _ (fun a _ => ?_)
  dsimp only
  exact bind_isSome_of (qdiv_isSome _ _ (ne_of_gt hlen)) rfl

theorem applyForceLayout_total (sq co si : ℚ → ℚ) (piv : ℚ)
    (nodes : List FNode) (edges : List GEdge)
    (hsq : ∀ q : ℚ, 0 < q → 0 < sq q) (hn : nodes ≠ []) :
    (applyForceLayout sq co si piv nodes edges).isSome = true := by
  have hlen : (0 : ℚ) < (nodes.length : ℚ) := by
    have : 0 < nodes.length := List.length_pos.mpr hn
    exact_mod_cast this
  unfold applyForceLayout
  rw [if_neg (by simpa [List.isEmpty_iff] using hn)]
  have hinit := forceInit_isSome co si piv nodes hn
  cases hi : forceInit co si piv nodes with
  | none =>
    rw [hi] at hinit
    exact absurd hinit (by simp)
  | some init =>
    refine bind_isSome_of rfl ?_
    refine bind_isSome_of (qdiv_isSome _ _ (ne_of_gt hlen)) ?_
    have hkpos : 0 < sq (1000000 / (nodes.length : ℚ)) :=
      hsq _ (div_pos (by norm_num) hlen)
    exact foldlM_option_isSome _ _
      (fun acc a _ => forceIteration_isSome sq edges _ (ne_of_gt hkpos) a acc) init

/-- **C8** (confirmed): for a graph with at least one node, the force
layout runs the fixed 100 iterations and never divides by zero — every
division is guarded by the `0.1` distance floor, the positive optimal
distance `k`, or the positive-magnitude check — so in the checked-division
model the layout always returns a result (no `NaN`/`Infinity` coordinate
is ever produced).  The hypothesis states that the square-root function is
positive on positive inputs (true of `Math.sqrt`). -/
theorem applyForceLayout_isSome (sq co si : ℚ → ℚ) (piv : ℚ)
    (nodes : List FNode) (edges : List GEdge)
    (hsq : ∀ q : ℚ, 0 < q → 0 < sq q) (hn : nodes ≠ []) :
    (applyForceLayout sq co si piv nodes edges).isSome = true ∧
    forceIterations = 100 :=
  ⟨applyForceLayout_total sq co si piv nodes edges hsq hn, rfl⟩

/-- Witness for **C8** at a concrete one-node graph with a self-loop edge,
using `fun q => max 1 q` as a square-root model (positive on positives). -/
theorem applyForceLayout_isSome_witness :
    (applyForceLayout (fun q => max 1 q) (fun _ => 1) (fun _ => 0) 3
        [⟨"a", 0, 0⟩] [⟨"a", "a"⟩]).isSome = true ∧
    forceIterations = 100 :=
  applyForceLayout_isSome (fun q => max 1 q) (fun _ => 1) (fun _ => 0) 3
    [⟨"a", 0, 0⟩] [⟨"a", "a"⟩]
    (fun q _ => lt_of_lt_of_le one_pos (le_max_left 1 q))
    (by simp)

/-! ### Force-layout position bound (C10) -/

theorem bind_eq_some_iff {α β : Type} {x : Option α} {f : α → Option β} {b : β} :
    (x >>= f) = some b ↔ ∃ a, x = some a ∧ f a = some b := by
  cases x <;> simp

theorem mapMOpt_mem {α β : Type} (f : α → Option β) :
    ∀ (l : List α) (l' : List β), mapMOpt f l = some l' →
      ∀ b ∈ l', ∃ a ∈ l, f a = some b := by
  intro l
  induction l with
  | nil =>
    intro l' h b hb
    unfold mapMOpt at h
    cases h
    cases hb
  | cons a as ih =>
    intro l' h b hb
    unfold mapMOpt at h
    cases hfa : f a with
    | none => rw [hfa] at h; cases h
    | some b0 =>
      rw [hfa] at h
      cases hrest : mapMOpt f as with
      | none => rw [hrest] at h; cases h
      | some bs =>
        rw [hrest] at h
        cases h
        rcases List.mem_cons.mp hb with rfl | hb
        · exact ⟨a, List.mem_cons_self a as, hfa⟩
        · rcases ih bs hrest b hb with ⟨a', ha', hfa'⟩
          exact ⟨a', List.mem_cons_of_mem a ha', hfa'⟩

/-- Sum of two planar vectors with bounded norms (squared form of the
triangle inequality, via Cauchy–Schwarz). -/
theorem planar_norm_add_le (a1 a2 b1 b2 r s : ℚ) (ha : a1^2 + a2^2 ≤ r^2)
    (hb : b1^2 + b2^2 ≤ s^2) (hr : 0 ≤ r) (hs : 0 ≤ s) :
    (a1+b1)^2 + (a2+b2)^2 ≤ (r+s)^2 := by
  have hinner : a1*b1 + a2*b2 ≤ r*s := by
    nlinarith [sq_nonneg (a1*b2 - a2*b1), mul_nonneg hr hs,
      sq_nonneg (a1*b1 + a2*b2 - r*s), sq_nonneg (a1*b1 + a2*b2 + r*s)]
  nlinarith [hinner, ha, hb]

/-- A single node update moves the node by at most `15 * damping` (in
squared-distance form relative to the center `(800, 400)`). -/
theorem updateNode_bound (sq : ℚ → ℚ) (damping : ℚ)
    (disp : List (String × (ℚ × ℚ))) (nd nd' : FNode) (r : ℚ)
    (hsq2 : ∀ q : ℚ, 0 ≤ q → q ≤ sq q * sq q)
    (hd : 0 ≤ damping) (hr : 0 ≤ r)
    (hb : (nd.x - 800)^2 + (nd.y - 400)^2 ≤ r^2)
    (h : updateNode sq damping disp nd = some nd') :
    (nd'.x - 800)^2 + (nd'.y - 400)^2 ≤ (r + 15 * damping)^2 := by
  unfold updateNode at h
  dsimp only at h
  set d := (alGet disp nd.id).getD (0, 0) with hdval
  set dx := d.1 - (nd.x - 800) * (1 / 20) with hdx
  set dy := d.2 - (nd.y - 400) * (1 / 20) with hdy
  set m := sq (dx * dx + dy * dy) with hm
  by_cases hmag : 0 < m
  · rw [if_pos hmag, qdiv_isSome _ _ (ne_of_gt hmag)] at h
    rw [show ((some (dx / m) >>= fun ux => do
        let uy ← qdiv dy m
        pure { nd with x := nd.x + ux * min m (15 * damping),
                       y := nd.y + uy * min m (15 * damping) }) : Option FNode)
      = (do
        let uy ← qdiv dy m
        pure { nd with x := nd.x + (dx / m) * min m (15 * damping),
                       y := nd.y + uy * min m (15 * damping) }) from rfl] at h
    rw [qdiv_isSome _ _ (ne_of_gt hmag)] at h
    have h' : nd' = { nd with x := nd.x + (dx / m) * min m (15 * damping),
                              y := nd.y + (dy / m) * min m (15 * damping) } := by
      cases h
      rfl
    subst h'
    dsimp only
    have hsq' : dx * dx + dy * dy ≤ m * m := hsq2 _ (by nlinarith [mul_self_nonneg dx, mul_self_nonneg dy])
    have hlim0 : 0 ≤ min m (15 * damping) := le_min hmag.le (by nlinarith [hd])
    have hlim1 : min m (15 * damping) ≤ 15 * damping := min_le_right _ _
    have hmove : ((dx / m) * min m (15 * damping))^2
        + ((dy / m) * min m (15 * damping))^2 ≤ (15 * damping)^2 := by
      have hmm : (0 : ℚ) < m * m := mul_pos hmag hmag
      have h1 : ((dx / m) * min m (15 * damping))^2
          + ((dy / m) * min m (15 * damping))^2
          = (dx * dx + dy * dy) * ((min m (15 * damping))^2 / (m * m)) := by
        field_simp
        ring
      rw [h1]
      have h2 : (dx * dx + dy * dy) * ((min m (15 * damping))^2 / (m * m))
          ≤ (m * m) * ((min m (15 * damping))^2 / (m * m)) :=
        mul_le_mul_of_nonneg_right hsq' (div_nonneg (sq_nonneg _) hmm.le)
      have h3 : (m * m) * ((min m (15 * damping))^2 / (m * m))
          = (min m (15 * damping))^2 := by
        field_simp
      have h4 : (min m (15 * damping))^2 ≤ (15 * damping)^2 := by
        nlinarith [hlim0, hlim1]
      linarith
    have := planar_norm_add_le (nd.x - 800) (nd.y - 400)
      ((dx / m) * min m (15 * damping)) ((dy / m) * min m (15 * damping))
      r (15 * damping) hb hmove hr (by nlinarith [hd])
    calc (nd.x + (dx / m) * min m (15 * damping) - 800)^2
          + (nd.y + (dy / m) * min m (15 * damping) - 400)^2
        = ((nd.x - 800) + (dx / m) * min m (15 * damping))^2
          + ((nd.y - 400) + (dy / m) * min m (15 * damping))^2 := by ring
      _ ≤ (r + 15 * damping)^2 := this
  · rw [if_neg hmag] at h
    cases h
    nlinarith [hb, hr, hd]

/-- The running distance bound: 600 from the initial circle plus the sum of
the per-iteration displacement caps `12 * (1 - j/100)` for `j < i`. -/
def forceBound (i : ℕ) : ℚ :=
  600 + 12 * (i : ℚ) - (3 / 50) * (i : ℚ) * ((i : ℚ) - 1)

theorem forceBound_nonneg (i : ℕ) (h : i ≤ 100) : 0 ≤ forceBound i := by
  unfold forceBound
  have h0 : (0 : ℚ) ≤ (i : ℚ) := Nat.cast_nonneg i
  have h100 : (i : ℚ) ≤ 100 := by exact_mod_cast h
  nlinarith [mul_nonneg (sub_nonneg.mpr h100) h0]

theorem forceBound_step (i : ℕ) :
    forceBound i + 12 * (1 - (i : ℚ) / 100) = forceBound (i + 1) := by
  unfold forceBound
  push_cast
  ring

/-- One force iteration enlarges the distance bound by the iteration's
displacement cap. -/
theorem forceIteration_bound (sq : ℚ → ℚ) (edges : List GEdge) (k : ℚ)
    (i : ℕ) (ps ps' : List FNode) (r : ℚ)
    (hsq2 : ∀ q : ℚ, 0 ≤ q → q ≤ sq q * sq q)
    (hi : i < 100) (hr : 0 ≤ r)
    (hb : ∀ nd ∈ ps, (nd.x - 800)^2 + (nd.y - 400)^2 ≤ r^2)
    (h : forceIteration sq edges k i ps = some ps') :
    ∀ nd' ∈ ps', (nd'.x - 800)^2 + (nd'.y - 400)^2
      ≤ (r + 12 * (1 - (i : ℚ) / 100))^2 := by
  intro nd' hmem
  unfold forceIteration at h
  rw [qdiv_isSome _ _ (by norm_num [forceIterations] :
    ((forceIterations : ℕ) : ℚ) ≠ 0)] at h
  rw [bind_eq_some_iff] at h
  obtain ⟨r0, hr0, h⟩ := h
  have hr0' : r0 = (i : ℚ) / (forceIterations : ℚ) := by
    cases hr0
    rfl
  subst hr0'
  rw [bind_eq_some_iff] at h
  obtain ⟨disp1, _, h⟩ := h
  rw [bind_eq_some_iff] at h
  obtain ⟨disp2, _, h⟩ := h
  obtain ⟨nd, hnd, hupd⟩ := mapMOpt_mem _ ps ps' h nd' hmem
  have hdamp : (0 : ℚ) ≤ (8 / 10) * (1 - (i : ℚ) / (forceIterations : ℚ)) := by
    have : (i : ℚ) ≤ 99 := by exact_mod_cast Nat.lt_succ_iff.mp hi
    rw [show ((forceIterations : ℕ) : ℚ) = 100 from by norm_num [forceIterations]]
    nlinarith
  have := updateNode_bound sq _ disp2 nd nd' r hsq2 hdamp hr (hb nd hnd) hupd
  have heq : r + 15 * ((8 / 10) * (1 - (i : ℚ) / (forceIterations : ℚ)))
      = r + 12 * (1 - (i : ℚ) / 100) := by
    rw [show ((forceIterations : ℕ) : ℚ) = 100 from by norm_num [forceIterations]]
    ring
  rw [heq] at this
  exact this

/-- The iterated force loop keeps every node within `forceBound 100` of the
center, starting from the initial circle bound `forceBound a`. -/
theorem forceLoop_bound (sq : ℚ → ℚ) (edges : List GEdge) (k : ℚ)
    (hsq2 : ∀ q : ℚ, 0 ≤ q → q ≤ sq q * sq q) :
    ∀ (b a : ℕ), a + b = 100 →
    ∀ (ps ps' : List FNode),
    (∀ nd ∈ ps, (nd.x - 800)^2 + (nd.y - 400)^2 ≤ (forceBound a)^2) →
    (List.range' a b).foldlM (fun ps i => forceIteration sq edges k i ps) ps = some ps' →
    ∀ nd' ∈ ps', (nd'.x - 800)^2 + (nd'.y - 400)^2 ≤ (forceBound 100)^2 := by
  intro b
  induction b with
  | zero =>
    intro a ha ps ps' hb h nd' hmem
    have ha' : a = 100 := by omega
    subst ha'
    cases h
    exact hb nd' hmem
  | succ b ih =>
    intro a ha ps ps' hb h
    rw [show List.range' a (b + 1) = a :: List.range' (a + 1) b from
      List.range'_succ a b 1, List.foldlM_cons, bind_eq_some_iff] at h
    obtain ⟨ps1, h1, h2⟩ := h
    have hstep := forceIteration_bound sq edges k a ps ps1 (forceBound a) hsq2
      (by omega) (forceBound_nonneg a (by omega)) hb h1
    have hb1 : ∀ nd ∈ ps1, (nd.x - 800)^2 + (nd.y - 400)^2 ≤ (forceBound (a + 1))^2 := by
      intro nd hnd
      have := hstep nd hnd
      rw [← forceBound_step a]
      exact this
    exact ih (a + 1) (by omega) ps1 ps' hb1 h2

/-- **C10** (confirmed): every position the force layout returns lies
within Euclidean distance 1206 of the center `(800, 400)` (stated in
squared form): the initial circle has radius at most 600, and each
iteration `i` moves a node by at most `15 * damping(i) = 12 * (1 - i/100)`,
which sums to 606 over the 100 iterations.  The hypotheses state that the
square-root model does not under-estimate (`q ≤ sq(q)²`) and that
`cos² + sin² ≤ 1`, both true of the real functions. -/
theorem applyForceLayout_bounded (sq co si : ℚ → ℚ) (piv : ℚ)
    (nodes : List FNode) (edges : List GEdge) (ps : List FNode)
    (hsq2 : ∀ q : ℚ, 0 ≤ q → q ≤ sq q * sq q)
    (htrig : ∀ θ : ℚ, co θ * co θ + si θ * si θ ≤ 1)
    (hn : nodes ≠ [])
    (h : applyForceLayout sq co si piv nodes edges = some ps) :
    ∀ nd ∈ ps, (nd.x - 800)^2 + (nd.y - 400)^2 ≤ 1206^2 := by
  unfold applyForceLayout at h
  rw [if_neg (by simpa [List.isEmpty_iff] using hn)] at h
  rw [bind_eq_some_iff] at h
  obtain ⟨init, hinit, h⟩ := h
  rw [bind_eq_some_iff] at h
  obtain ⟨k0, _, h⟩ := h
  have hinitb : ∀ nd ∈ init, (nd.x - 800)^2 + (nd.y - 400)^2 ≤ (forceBound 0)^2 := by
    intro nd hnd
    unfold forceInit at hinit
    dsimp only at hinit
    obtain ⟨p, _, hp⟩ := mapMOpt_mem _ _ _ hinit nd hnd
    rw [bind_eq_some_iff] at hp
    obtain ⟨frac, _, hp⟩ := hp
    have hnd' : nd = { p.2 with
        x := 800 + min 600 (max 300 ((nodes.length : ℚ) * 20)) * co (frac * 2 * piv),
        y := 400 + min 600 (max 300 ((nodes.length : ℚ) * 20)) * si (frac * 2 * piv) } := by
      cases hp
      rfl
    subst hnd'
    dsimp only
    set radius : ℚ := min 600 (max 300 ((nodes.length : ℚ) * 20)) with hradius
    have hrad0 : (0 : ℚ) ≤ radius :=
      le_min (by norm_num) (le_trans (by norm_num) (le_max_left _ _))
    have hrad600 : radius ≤ 600 := min_le_left _ _
    have hcs := htrig (frac * 2 * piv)
    have hfb : forceBound 0 = 600 := by norm_num [forceBound]
    rw [hfb]
    have hsq : radius * radius ≤ 600 * 600 := by nlinarith
    calc (800 + radius * co (frac * 2 * piv) - 800)^2
          + (400 + radius * si (frac * 2 * piv) - 400)^2
        = radius * radius * (co (frac * 2 * piv) * co (frac * 2 * piv)
            + si (frac * 2 * piv) * si (frac * 2 * piv)) := by ring
      _ ≤ radius * radius * 1 := by
          apply mul_le_mul_of_nonneg_left hcs (by positivity)
      _ = radius * radius := by ring
      _ ≤ 600 * 600 := hsq
      _ = 600^2 := by ring
  have hfinal := forceLoop_bound sq edges (sq k0) hsq2 100 0 (by omega) init ps
    hinitb (by rw [← List.range_eq_range']; exact h)
  intro nd hnd
  have := hfinal nd hnd
  rw [show forceBound 100 = 1206 from by norm_num [forceBound]] at this
  exact this

/-- Witness for **C10**: with `max 1 q` as square-root model
(`q ≤ (max 1 q)²` for `q ≥ 0`), `cos = 1`, `sin = 0`, the one-node layout
returns a position list (by the division-safety argument) and the theorem
bounds every returned position. -/
theorem applyForceLayout_bounded_witness :
    ∃ ps, applyForceLayout (fun q => max 1 q) (fun _ => 1) (fun _ => 0) 3
        [⟨"a", 0, 0⟩] [] = some ps
      ∧ ∀ nd ∈ ps, (nd.x - 800)^2 + (nd.y - 400)^2 ≤ 1206^2 := by
  have ht := applyForceLayout_total (fun q => max 1 q) (fun _ => 1) (fun _ => 0) 3
    [⟨"a", 0, 0⟩] [] (fun q _ => lt_of_lt_of_le one_pos (le_max_left 1 q)) (by simp)
  cases hres : applyForceLayout (fun q => max 1 q) (fun _ => 1) (fun _ => 0) 3
      [⟨"a", 0, 0⟩] [] with
  | none =>
    rw [hres] at ht
    exact absurd ht (by simp)
  | some ps =>
    refine ⟨ps, rfl, ?_⟩
    exact applyForceLayout_bounded (fun q => max 1 q) (fun _ => 1) (fun _ => 0) 3
      [⟨"a", 0, 0⟩] [] ps
      (fun q hq => by
        dsimp only
        rcases le_total q 1 with hq1 | hq1
        · rw [max_eq_left hq1]
          nlinarith
        · rw [max_eq_right hq1]
          nlinarith)
      (fun _ => by norm_num)
      (by simp)
      hres

/-- **C1** (code bug): the claim states that the bottom-up level-assignment
walk terminates on every input graph, revisits acting as no-ops.  On the
cyclic graph `A → B, B → A, B → C` (cycle reachable from the leaf `C`) the
walk re-processes a revisited node whenever the proposed level is smaller,
so the recursion exceeds every depth bound `fuel`: the fuel-indexed
embedding returns `none` for all `fuel`. -/
theorem assignLevelsBottomUp_cycle_unbounded :
    ∀ fuel : ℕ, treeLevelState fuel cycNodes cycEdges = none := by
  intro fuel
  have h : assignLevelsBottomUp cycRadjF fuel "B" 999 cycSt0 = none := by
    apply cyc_assign_none fuel "B" "A" 999 cycSt0 (Or.inr ⟨rfl, rfl⟩)
    · exact Or.inl (by decide)
    · exact Or.inl (by decide)
  have h2 : assignParents cycRadjF fuel (cycRadjF "C") 1000 cycSt0 = none := by
    rw [show cycRadjF "C" = ["B"] from rfl]
    unfold assignParents
    rw [assignParentsWith, show (1000 : Int) - 1 = 999 from by norm_num, h]
  have h2' : assignParents cycRadjF fuel ["B"] 1000 cycSt0 = none := by
    rw [← show cycRadjF "C" = ["B"] from rfl]
    exact h2
  unfold treeLevelState
  dsimp only
  rw [show leafNodesOf cycNodes cycEdges = ["C"] from rfl]
  rw [List.foldlM_cons,
    show reverseAdjacencyOf cycEdges = cycRadjF from rfl,
    show cycRadjF "C" = ["B"] from rfl,
    show (List.foldl (fun st nid => placeNodeAt st nid 1000)
        (⟨[], [], []⟩ : LvlState) ["C"]) = cycSt0 from rfl,
    h2']
  rfl

/-! ### Top-level composition of the leveling stage (towards C2 and C3) -/

theorem mem_leafNodesOf (nodeIds : List String) (edges : List GEdge) (x : String) :
    x ∈ leafNodesOf nodeIds edges ↔ x ∈ nodeIds ∧ adjacencyOf edges x = [] := by
  unfold leafNodesOf
  rw [List.mem_filter]
  simp [List.isEmpty_iff]

theorem leaf_not_reaches (edges : List GEdge) (L p : String)
    (hL : adjacencyOf edges L = []) (hp : ∃ t, edgeRel edges p t) :
    ¬ Reaches edges L p := by
  intro h
  rcases Relation.ReflTransGen.cases_head h with heq | ⟨c, hLc, _⟩
  · obtain ⟨t, ht⟩ := hp
    have hmem : t ∈ adjacencyOf edges p := (mem_adjacencyOf_iff edges p t).mpr ht
    rw [← heq, hL] at hmem
    cases hmem
  · have hmem : c ∈ adjacencyOf edges L := (mem_adjacencyOf_iff edges L c).mpr hLc
    rw [hL] at hmem
    cases hmem

theorem processNode_of_not_visited (st : LvlState) (n : String) (l : Int)
    (h : n ∉ st.visited) : processNode st n l = placeNodeAt st n l := by
  unfold processNode placeNodeAt
  rw [if_neg h]

theorem StInv_empty (ids : List String) : StInv ids ⟨[], [], []⟩ := by
  refine ⟨?_, ?_, ?_, ?_, ?_, ?_⟩
  · intro lv b hb
    simp [alGet] at hb
  · intro x hx
    simp at hx
  · intro x lv
    simp [bucketD, alGet]
  · intro x hx
    simp at hx
  · simp [KeysNodup]
  · intro x hx
    simp at hx

theorem seed_fold (nodeIds : List String) :
    ∀ (ls : List String) (st : LvlState), ls.Nodup →
      (∀ L ∈ ls, L ∉ st.visited) → (∀ L ∈ ls, L ∈ nodeIds) →
      StInv nodeIds st → (∀ x ∈ st.visited, alGet st.levels x = some 1000) →
      StInv nodeIds (ls.foldl (fun st nid => placeNodeAt st nid 1000) st)
        ∧ (∀ x ∈ (ls.foldl (fun st nid => placeNodeAt st nid 1000) st).visited,
            alGet (ls.foldl (fun st nid => placeNodeAt st nid 1000) st).levels x
              = some 1000)
        ∧ (∀ x, x ∈ (ls.foldl (fun st nid => placeNodeAt st nid 1000) st).visited
            ↔ (x ∈ st.visited ∨ x ∈ ls)) := by
  intro ls
  induction ls with
  | nil =>
    intro st _ _ _ hinv hlv
    refine ⟨hinv, hlv, fun x => ?_⟩
    simp
  | cons L ls ih =>
    intro st hnd hdisj hids hinv hlv
    have hLv : L ∉ st.visited := hdisj L (List.mem_cons_self L ls)
    have hLn : L ∉ ls := (List.nodup_cons.mp hnd).1
    rw [List.foldl_cons]
    rw [← processNode_of_not_visited st L 1000 hLv]
    obtain ⟨hinv1, hget1, hmem1⟩ := processNode_inv nodeIds st L 1000 hinv le_rfl
      (hids L (List.mem_cons_self L ls)) (Or.inl hLv) (fun hv => absurd hv hLv)
    have hlv1 : ∀ x ∈ (processNode st L 1000).visited,
        alGet (processNode st L 1000).levels x = some 1000 := by
      intro x hx
      rcases (mem_visited_processNode st L x 1000).mp hx with hx' | rfl
      · rw [processNode_levels]
        have hxL : x ≠ L := fun he => hLv (he ▸ hx')
        rw [alGet_alSet_ne _ _ _ _ hxL]
        exact hlv x hx'
      · exact hget1
    have hdisj1 : ∀ L' ∈ ls, L' ∉ (processNode st L 1000).visited := by
      intro L' hL' hmem
      rcases (mem_visited_processNode st L L' 1000).mp hmem with h' | rfl
      · exact hdisj L' (List.mem_cons_of_mem L hL') h'
      · exact hLn hL'
    have hres := ih (processNode st L 1000) (List.nodup_cons.mp hnd).2 hdisj1
      (fun L' hL' => hids L' (List.mem_cons_of_mem L hL')) hinv1 hlv1
    refine ⟨hres.1, hres.2.1, fun x => ?_⟩
    rw [hres.2.2 x, mem_visited_processNode]
    constructor
    · rintro ((h' | rfl) | h')
      · exact Or.inl h'
      · exact Or.inr (List.mem_cons_self _ _)
      · exact Or.inr (List.mem_cons_of_mem L h')
    · rintro (h' | h')
      · exact Or.inl (Or.inl h')
      · rcases List.mem_cons.mp h' with rfl | h''
        · exact Or.inl (Or.inr rfl)
        · exact Or.inr h''

theorem topParents_main (nodeIds : List String) (edges : List GEdge)
    (rank : String → ℕ)
    (hrank : ∀ e ∈ edges, rank e.source < rank e.target)
    (hwf : ∀ e ∈ edges, e.source ∈ nodeIds ∧ e.target ∈ nodeIds)
    (f : ℕ) (X : List String)
    (leafSet : List String) (hleafSet : ∀ L ∈ leafSet, adjacencyOf edges L = [])
    (L0 : String) (hL0 : L0 ∈ leafSet) :
    ∀ (ps : List String), (∀ p ∈ ps, edgeRel edges p L0) →
      ∀ (s s' : LvlState),
        assignParentsWith (assignLevelsBottomUp (reverseAdjacencyOf edges) f) ps 1000 s
          = some s' →
        StInv nodeIds s → SettledX edges X s →
        (∀ L ∈ leafSet, L ∈ s.visited ∧ alGet s.levels L = some 1000) →
        StInv nodeIds s' ∧ SettledX edges X s'
          ∧ (∀ L ∈ leafSet, L ∈ s'.visited ∧ alGet s'.levels L = some 1000)
          ∧ (∀ p ∈ ps, p ∈ s'.visited ∧ lvlGetD s' p ≤ 999)
          ∧ (∀ x ∈ s.visited, x ∈ s'.visited ∧ lvlGetD s' x ≤ lvlGetD s x) := by
  intro ps
  induction ps with
  | nil =>
    intro _ s s' hh hI hS hfacts
    rw [assignParentsWith] at hh
    cases hh
    exact ⟨hI, hS, hfacts, by simp, fun x hx => ⟨hx, le_rfl⟩⟩
  | cons p ps ihp =>
    intro hsub s s' hh hI hS hfacts
    rw [assignParentsWith] at hh
    cases hstep : assignLevelsBottomUp (reverseAdjacencyOf edges) f p (1000 - 1) s with
    | none => rw [hstep] at hh; cases hh
    | some s1 =>
      rw [hstep] at hh
      have hpe : edgeRel edges p L0 := hsub p (List.mem_cons_self p ps)
      have hpid : p ∈ nodeIds := by
        obtain ⟨e, he, hsx, _⟩ := hpe
        exact hsx ▸ (hwf e he).1
      have hPp : PreOcc edges p (1000 - 1) s := by
        intro m hm1 hm2
        have hm : m = 1000 := by omega
        subst hm
        refine ⟨L0, (hI.2.2.1 L0 1000).mpr ⟨(hfacts L0 hL0).1, (hfacts L0 hL0).2⟩, ?_⟩
        exact leaf_not_reaches edges L0 p (hleafSet L0 hL0) ⟨L0, hpe⟩
      have hmain := assign_main nodeIds edges rank hrank hwf f X p (1000 - 1) s s1
        hstep (by omega) hpid hI hS hPp
      have hmono := assign_mono (reverseAdjacencyOf edges) f p (1000 - 1) s s1 hstep
      have hfacts1 : ∀ L ∈ leafSet, L ∈ s1.visited ∧ alGet s1.levels L = some 1000 := by
        intro L hL
        have hnr : ¬ Reaches edges L p :=
          leaf_not_reaches edges L p (hleafSet L hL) ⟨L0, hpe⟩
        have hfr := assign_frame edges f p (1000 - 1) s s1 hstep L hnr
        exact ⟨hfr.1.mpr (hfacts L hL).1, hfr.2.1.trans (hfacts L hL).2⟩
      have hrest := ihp (fun q hq => hsub q (List.mem_cons_of_mem p hq)) s1 s' hh
        hmain.1 hmain.2 hfacts1
      refine ⟨hrest.1, hrest.2.1, hrest.2.2.1, ?_, ?_⟩
      · intro q hq
        rcases List.mem_cons.mp hq with rfl | hq'
        · obtain ⟨hv1, hl1⟩ := hrest.2.2.2.2 q hmono.2.1
          have hl2 := hmono.2.2
          exact ⟨hv1, by omega⟩
        · exact hrest.2.2.2.1 q hq'
      · intro x hx
        obtain ⟨hv1, hl1⟩ := hmono.1 x hx
        obtain ⟨hv2, hl2⟩ := hrest.2.2.2.2 x hv1
        exact ⟨hv2, le_trans hl2 hl1⟩

theorem walkLoop_main (nodeIds : List String) (edges : List GEdge)
    (rank : String → ℕ)
    (hrank : ∀ e ∈ edges, rank e.source < rank e.target)
    (hwf : ∀ e ∈ edges, e.source ∈ nodeIds ∧ e.target ∈ nodeIds)
    (f : ℕ) (X : List String)
    (leafSet : List String) (hleafSet : ∀ L ∈ leafSet, adjacencyOf edges L = []) :
    ∀ (ls : List String), (∀ L ∈ ls, L ∈ leafSet) →
      ∀ (s s' : LvlState),
        List.foldlM (fun st nid =>
            assignParents (reverseAdjacencyOf edges) f (reverseAdjacencyOf edges nid)
              1000 st) s ls = some s' →
        StInv nodeIds s → SettledX edges X s →
        (∀ L ∈ leafSet, L ∈ s.visited ∧ alGet s.levels L = some 1000) →
        StInv nodeIds s' ∧ SettledX edges X s'
          ∧ (∀ L ∈ leafSet, L ∈ s'.visited ∧ alGet s'.levels L = some 1000)
          ∧ (∀ L ∈ ls, ∀ p ∈ reverseAdjacencyOf edges L,
              p ∈ s'.visited ∧ lvlGetD s' p ≤ 999)
          ∧ (∀ x ∈ s.visited, x ∈ s'.visited ∧ lvlGetD s' x ≤ lvlGetD s x) := by
  intro ls
  induction ls with
  | nil =>
    intro _ s s' hh hI hS hfacts
    rw [List.foldlM_nil] at hh
    cases hh
    exact ⟨hI, hS, hfacts, by simp, fun x hx => ⟨hx, le_rfl⟩⟩
  | cons L ls ih =>
    intro hsub s s' hh hI hS hfacts
    rw [List.foldlM_cons] at hh
    cases hstep : assignParents (reverseAdjacencyOf edges) f
        (reverseAdjacencyOf edges L) 1000 s with
    | none =>
      rw [hstep] at hh
      cases hh
    | some s1 =>
      rw [hstep] at hh
      have hh2 : List.foldlM (fun st nid =>
          assignParents (reverseAdjacencyOf edges) f (reverseAdjacencyOf edges nid)
            1000 st) s1 ls = some s' := hh
      have hstepW : assignParentsWith (assignLevelsBottomUp (reverseAdjacencyOf edges) f)
          (reverseAdjacencyOf edges L) 1000 s = some s1 := hstep
      have hmain := topParents_main nodeIds edges rank hrank hwf f X leafSet hleafSet
        L (hsub L (List.mem_cons_self L ls)) (reverseAdjacencyOf edges L)
        (fun p hp => (mem_reverseAdjacencyOf_iff edges L p).mp hp) s s1 hstepW
        hI hS hfacts
      have hrest := ih (fun q hq => hsub q (List.mem_cons_of_mem L hq)) s1 s' hh2
        hmain.1 hmain.2.1 hmain.2.2.1
      refine ⟨hrest.1, hrest.2.1, hrest.2.2.1, ?_, ?_⟩
      · intro L' hL' p hp
        rcases List.mem_cons.mp hL' with rfl | hL''
        · obtain ⟨hv1, hl1⟩ := hmain.2.2.2.1 p hp
          obtain ⟨hv2, hl2⟩ := hrest.2.2.2.2 p hv1
          exact ⟨hv2, by omega⟩
        · exact hrest.2.2.2.1 L' hL'' p hp
      · intro x hx
        obtain ⟨hv1, hl1⟩ := hmain.2.2.2.2 x hx
        obtain ⟨hv2, hl2⟩ := hrest.2.2.2.2 x hv1
        exact ⟨hv2, le_trans hl2 hl1⟩

theorem walkLoop_isSome (edges : List GEdge) (rank : String → ℕ)
    (hrank : ∀ e ∈ edges, rank e.source < rank e.target) (f : ℕ)
    (ls : List String)
    (hps : ∀ L ∈ ls, ∀ p ∈ reverseAdjacencyOf edges L, rank p < f) :
    ∀ s : LvlState,
      (List.foldlM (fun st nid =>
          assignParents (reverseAdjacencyOf edges) f (reverseAdjacencyOf edges nid)
            1000 st) s ls).isSome = true := by
  intro s
  apply foldlM_option_isSome
  intro acc a ha
  exact assignParents_isSome edges rank hrank f (reverseAdjacencyOf edges a)
    (fun p hp => hps a ha p hp) 1000 acc

theorem all_visited_of_walk (nodeIds : List String) (edges : List GEdge)
    (rank : String → ℕ) (N : ℕ)
    (hrank : ∀ e ∈ edges, rank e.source < rank e.target)
    (hwf : ∀ e ∈ edges, e.source ∈ nodeIds ∧ e.target ∈ nodeIds)
    (hN : ∀ x ∈ nodeIds, rank x ≤ N)
    (st : LvlState)
    (hS : SettledX edges (leafNodesOf nodeIds edges) st)
    (hleafvis : ∀ L ∈ leafNodesOf nodeIds edges, L ∈ st.visited)
    (hpar : ∀ L ∈ leafNodesOf nodeIds edges, ∀ p ∈ reverseAdjacencyOf edges L,
      p ∈ st.visited) :
    ∀ x ∈ nodeIds, x ∈ st.visited := by
  have key : ∀ (k : ℕ) (x : String), x ∈ nodeIds → N ≤ rank x + k → x ∈ st.visited := by
    intro k
    induction k with
    | zero =>
      intro x hx hr
      by_cases hleaf : adjacencyOf edges x = []
      · exact hleafvis x ((mem_leafNodesOf nodeIds edges x).mpr ⟨hx, hleaf⟩)
      · obtain ⟨t, ht⟩ := List.exists_mem_of_ne_nil _ hleaf
        obtain ⟨e, he, hsx, htx⟩ := (mem_adjacencyOf_iff edges x t).mp ht
        have h1 := hrank e he
        have h2 := hN e.target (hwf e he).2
        rw [hsx] at h1
        omega
    | succ k ihk =>
      intro x hx hr
      by_cases hleaf : adjacencyOf edges x = []
      · exact hleafvis x ((mem_leafNodesOf nodeIds edges x).mpr ⟨hx, hleaf⟩)
      · obtain ⟨t, ht⟩ := List.exists_mem_of_ne_nil _ hleaf
        have hrel : edgeRel edges x t := (mem_adjacencyOf_iff edges x t).mp ht
        by_cases htleaf : t ∈ leafNodesOf nodeIds edges
        · exact hpar t htleaf x ((mem_reverseAdjacencyOf_iff edges t x).mpr hrel)
        · obtain ⟨e, he, hsx, htx⟩ := hrel
          have htvis : e.target ∈ st.visited := by
            apply ihk e.target (hwf e he).2
            have h1 := hrank e he
            rw [hsx] at h1
            omega
          have hnl : e.target ∉ leafNodesOf nodeIds edges := by
            rw [htx]
            exact htleaf
          have hres := hS e he hnl htvis
          rw [← hsx]
          exact hres.1
  intro x hx
  exact key N x hx (by have := hN x hx; omega)

theorem fallbackPass_of_all_visited (nodeIds rootNodes : List String) :
    ∀ (st : LvlState), (∀ x ∈ nodeIds, x ∈ st.visited) →
      fallbackPass nodeIds rootNodes st = st := by
  unfold fallbackPass
  induction nodeIds with
  | nil =>
    intro st _
    rfl
  | cons n ns ih =>
    intro st h
    rw [List.foldl_cons]
    rw [if_pos (h n (List.mem_cons_self n ns))]
    exact ih st (fun x hx => h x (List.mem_cons_of_mem n hx))

theorem preNorm_edge_strict (nodeIds : List String) (edges : List GEdge) (st : LvlState)
    (hS : SettledX edges (leafNodesOf nodeIds edges) st)
    (hwf : ∀ e ∈ edges, e.source ∈ nodeIds ∧ e.target ∈ nodeIds)
    (hall : ∀ x ∈ nodeIds, x ∈ st.visited)
    (hleaf : ∀ L ∈ leafNodesOf nodeIds edges, alGet st.levels L = some 1000)
    (hpar : ∀ L ∈ leafNodesOf nodeIds edges, ∀ p ∈ reverseAdjacencyOf edges L,
      lvlGetD st p ≤ 999) :
    ∀ e ∈ edges, lvlGetD st e.source < lvlGetD st e.target := by
  intro e he
  by_cases ht : e.target ∈ leafNodesOf nodeIds edges
  · have h1 : lvlGetD st e.target = 1000 := by
      unfold lvlGetD
      rw [hleaf e.target ht]
      rfl
    have hsrc : e.source ∈ reverseAdjacencyOf edges e.target :=
      (mem_reverseAdjacencyOf_iff edges e.target e.source).mpr ⟨e, he, rfl, rfl⟩
    have h2 := hpar e.target ht e.source hsrc
    omega
  · exact (hS e he ht (hall e.target (hwf e he).2)).2

theorem treeLevel_complete (nodeIds : List String) (edges : List GEdge)
    (rank : String → ℕ) (N : ℕ) (hnd : nodeIds.Nodup)
    (hrank : ∀ e ∈ edges, rank e.source < rank e.target)
    (hwf : ∀ e ∈ edges, e.source ∈ nodeIds ∧ e.target ∈ nodeIds)
    (hN : ∀ x ∈ nodeIds, rank x ≤ N) :
    ∃ st1, (leafNodesOf nodeIds edges).foldlM
        (fun st nid => assignParents (reverseAdjacencyOf edges) (N + 2)
          (reverseAdjacencyOf edges nid) 1000 st)
        ((leafNodesOf nodeIds edges).foldl (fun st nid => placeNodeAt st nid 1000)
          (⟨[], [], []⟩ : LvlState)) = some st1
      ∧ StInv nodeIds st1
      ∧ (∀ x ∈ nodeIds, x ∈ st1.visited)
      ∧ (∀ e ∈ edges, lvlGetD st1 e.source < lvlGetD st1 e.target) := by
  have hleafSet : ∀ L ∈ leafNodesOf nodeIds edges, adjacencyOf edges L = [] :=
    fun L hL => ((mem_leafNodesOf nodeIds edges L).mp hL).2
  have hleafIds : ∀ L ∈ leafNodesOf nodeIds edges, L ∈ nodeIds :=
    fun L hL => ((mem_leafNodesOf nodeIds edges L).mp hL).1
  have hndL : (leafNodesOf nodeIds edges).Nodup := List.Nodup.filter _ hnd
  obtain ⟨hinv0, hlv0, hvis0⟩ := seed_fold nodeIds (leafNodesOf nodeIds edges)
    ⟨[], [], []⟩ hndL (fun L _ hm => by cases hm) hleafIds (StInv_empty nodeIds)
    (fun x hx => by cases hx)
  have hvis0' : ∀ x, x ∈ ((leafNodesOf nodeIds edges).foldl
      (fun st nid => placeNodeAt st nid 1000) (⟨[], [], []⟩ : LvlState)).visited
      ↔ x ∈ leafNodesOf nodeIds edges := by
    intro x
    rw [hvis0 x]
    constructor
    · rintro (h | h)
      · cases h
      · exact h
    · exact Or.inr
  have hS0 : SettledX edges (leafNodesOf nodeIds edges)
      ((leafNodesOf nodeIds edges).foldl (fun st nid => placeNodeAt st nid 1000)
        (⟨[], [], []⟩ : LvlState)) := by
    intro e he htX htv
    exact absurd ((hvis0' e.target).mp htv) htX
  have hfacts0 : ∀ L ∈ leafNodesOf nodeIds edges,
      L ∈ ((leafNodesOf nodeIds edges).foldl (fun st nid => placeNodeAt st nid 1000)
        (⟨[], [], []⟩ : LvlState)).visited
      ∧ alGet ((leafNodesOf nodeIds edges).foldl (fun st nid => placeNodeAt st nid 1000)
        (⟨[], [], []⟩ : LvlState)).levels L = some 1000 := by
    intro L hL
    have hm := (hvis0' L).mpr hL
    exact ⟨hm, hlv0 L hm⟩
  have hsome := walkLoop_isSome edges rank hrank (N + 2) (leafNodesOf nodeIds edges)
    (fun L _ p hp => by
      have hrel := (mem_reverseAdjacencyOf_iff edges L p).mp hp
      obtain ⟨e, he, hsx, _⟩ := hrel
      have := hN e.source ((hwf e he).1)
      rw [hsx] at this
      omega)
    ((leafNodesOf nodeIds edges).foldl (fun st nid => placeNodeAt st nid 1000)
      (⟨[], [], []⟩ : LvlState))
  cases hfold : List.foldlM (fun st nid =>
      assignParents (reverseAdjacencyOf edges) (N + 2) (reverseAdjacencyOf edges nid)
        1000 st)
      ((leafNodesOf nodeIds edges).foldl (fun st nid => placeNodeAt st nid 1000)
        (⟨[], [], []⟩ : LvlState)) (leafNodesOf nodeIds edges) with
  | none =>
    rw [hfold] at hsome
    exact absurd hsome (by simp)
  | some st1 =>
    obtain ⟨hinv1, hS1, hfacts1, hpar1, _⟩ := walkLoop_main nodeIds edges rank hrank hwf
      (N + 2) (leafNodesOf nodeIds edges) (leafNodesOf nodeIds edges) hleafSet
      (leafNodesOf nodeIds edges) (fun L hL => hL) _ st1 hfold hinv0 hS0 hfacts0
    have hall : ∀ x ∈ nodeIds, x ∈ st1.visited :=
      all_visited_of_walk nodeIds edges rank N hrank hwf hN st1 hS1
        (fun L hL => (hfacts1 L hL).1) (fun L hL p hp => (hpar1 L hL p hp).1)
    refine ⟨st1, rfl, hinv1, hall, ?_⟩
    exact preNorm_edge_strict nodeIds edges st1 hS1 hwf hall
      (fun L hL => (hfacts1 L hL).2) (fun L hL p hp => (hpar1 L hL p hp).2)

/-! ### Level normalization (`NetworkGraph.tsx` lines 191–218) -/

theorem mem_of_alGet {κ ν : Type} [DecidableEq κ] (m : List (κ × ν)) (k : κ) (v : ν)
    (h : alGet m k = some v) : (k, v) ∈ m := by
  unfold alGet at h
  cases hf : m.find? (fun p => decide (p.1 = k)) with
  | none =>
    rw [hf] at h
    cases h
  | some p =>
    rw [hf] at h
    have hp := List.find?_some hf
    have hm := List.mem_of_find?_eq_some hf
    have hk : p.1 = k := by simpa using hp
    have hv : p.2 = v := by
      cases p
      simpa using h
    have hpe : p = (k, v) := by
      cases p
      simp_all
    rw [← hpe]
    exact hm

theorem alGet_of_mem_nodup {κ ν : Type} [DecidableEq κ] :
    ∀ (m : List (κ × ν)) (k : κ) (v : ν), (k, v) ∈ m → (m.map Prod.fst).Nodup →
      alGet m k = some v := by
  intro m
  induction m with
  | nil =>
    intro k v h
    cases h
  | cons p m ih =>
    intro k v h hnd
    rw [List.map_cons, List.nodup_cons] at hnd
    rcases List.mem_cons.mp h with rfl | hm
    · rw [alGet_cons]
      simp
    · have hk : k ∈ m.map Prod.fst := List.mem_map.mpr ⟨(k, v), hm, rfl⟩
      have hp1 : p.1 ≠ k := by
        intro he
        apply hnd.1
        rw [he]
        exact hk
      rw [alGet_cons, if_neg hp1]
      exact ih k v hm hnd.2

theorem indexOf_inj_of_nodup :
    ∀ (l : List Int), l.Nodup → ∀ a b, a ∈ l → b ∈ l →
      l.indexOf a = l.indexOf b → a = b := by
  intro l
  induction l with
  | nil =>
    intro _ a b ha
    cases ha
  | cons h t ih =>
    intro hnd a b ha hb heq
    by_cases hah : a = h
    · by_cases hbh : b = h
      · rw [hah, hbh]
      · subst hah
        rw [List.indexOf_cons_self] at heq
        rw [List.indexOf_cons_ne t (fun he : a = b => hbh he.symm)] at heq
        simp at heq
    · by_cases hbh : b = h
      · subst hbh
        rw [List.indexOf_cons_self] at heq
        rw [List.indexOf_cons_ne t (fun he : b = a => hah he.symm)] at heq
        simp at heq
      · have hat : a ∈ t := by
          rcases List.mem_cons.mp ha with rfl | hat
          · exact absurd rfl hah
          · exact hat
        have hbt : b ∈ t := by
          rcases List.mem_cons.mp hb with rfl | hbt
          · exact absurd rfl hbh
          · exact hbt
        rw [List.indexOf_cons_ne t (fun he : h = a => hah he.symm),
          List.indexOf_cons_ne t (fun he : h = b => hbh he.symm)] at heq
        exact ih (List.nodup_cons.mp hnd).2 a b hat hbt (Nat.succ_injective heq)

theorem sorted_indexOf_strictMono :
    ∀ (l : List Int), List.Pairwise (fun a b => a ≤ b) l → l.Nodup →
      ∀ a b, a ∈ l → b ∈ l → a < b → l.indexOf a < l.indexOf b := by
  intro l
  induction l with
  | nil =>
    intro _ _ a b ha
    cases ha
  | cons h t ih =>
    intro hs hnd a b ha hb hab
    by_cases hah : a = h
    · subst hah
      have hbt : b ∈ t := by
        rcases List.mem_cons.mp hb with rfl | hbt
        · exact absurd hab (lt_irrefl _)
        · exact hbt
      rw [List.indexOf_cons_self, List.indexOf_cons_ne t (ne_of_lt hab)]
      exact Nat.succ_pos _
    · have hat : a ∈ t := by
        rcases List.mem_cons.mp ha with rfl | hat
        · exact absurd rfl hah
        · exact hat
      have hbh : b ≠ h := by
        intro he
        subst he
        have hle := (List.pairwise_cons.mp hs).1 a hat
        omega
      have hbt : b ∈ t := by
        rcases List.mem_cons.mp hb with rfl | hbt
        · exact absurd rfl hbh
        · exact hbt
      rw [List.indexOf_cons_ne t (fun he : h = a => hah he.symm),
        List.indexOf_cons_ne t (fun he : h = b => hbh he.symm)]
      have := ih (List.pairwise_cons.mp hs).2 (List.nodup_cons.mp hnd).2 a b hat hbt hab
      omega

theorem alHas_alSet_false {κ ν : Type} [DecidableEq κ] (m : List (κ × ν)) (k k' : κ)
    (v : ν) (h1 : alHas m k' = false) (h2 : k' ≠ k) :
    alHas (alSet m k v) k' = false := by
  cases h : alHas (alSet m k v) k' with
  | false => rfl
  | true =>
    rcases (alHas_alSet_iff m k k' v).mp h with hh | hh
    · rw [h1] at hh
      exact absurd hh (by decide)
    · exact absurd hh h2

theorem alSet_length_of_not_has {κ ν : Type} [DecidableEq κ] (m : List (κ × ν))
    (k : κ) (v : ν) (h : alHas m k = false) :
    (alSet m k v).length = m.length + 1 := by
  unfold alSet
  rw [h]
  simp

theorem inner_levels_fold (x : String) (v : Int) :
    ∀ (ids : List String) (acc : List (String × Int)),
      alGet (ids.foldl (fun lv nid => alSet lv nid v) acc) x
        = if x ∈ ids then some v else alGet acc x := by
  intro ids
  induction ids with
  | nil =>
    intro acc
    simp
  | cons i ids ih =>
    intro acc
    rw [List.foldl_cons, ih]
    by_cases hx : x ∈ ids
    · rw [if_pos hx, if_pos (List.mem_cons_of_mem i hx)]
    · rw [if_neg hx]
      by_cases hxi : x = i
      · subst hxi
        rw [if_pos (List.mem_cons_self x ids), alGet_alSet_self]
      · rw [if_neg (fun hm => (List.mem_cons.mp hm).elim hxi hx),
          alGet_alSet_ne _ _ _ _ hxi]

theorem norm_fold_levels (nf : Int → Int) (x : String) (lx : Int) :
    ∀ (entries : List (Int × List String)) (accB : List (Int × List String))
      (accL : List (String × Int)),
      (∀ p ∈ entries, x ∈ p.2 → p.1 = lx) →
      ((∃ p ∈ entries, x ∈ p.2) →
        alGet (entries.foldl
          (fun (acc : List (Int × List String) × List (String × Int)) bucket =>
            (alSet acc.1 (nf bucket.1)
              (((alGet acc.1 (nf bucket.1)).getD []) ++ bucket.2),
             bucket.2.foldl (fun lv nid => alSet lv nid (nf bucket.1)) acc.2))
          (accB, accL)).2 x = some (nf lx))
      ∧ ((∀ p ∈ entries, x ∉ p.2) →
        alGet (entries.foldl
          (fun (acc : List (Int × List String) × List (String × Int)) bucket =>
            (alSet acc.1 (nf bucket.1)
              (((alGet acc.1 (nf bucket.1)).getD []) ++ bucket.2),
             bucket.2.foldl (fun lv nid => alSet lv nid (nf bucket.1)) acc.2))
          (accB, accL)).2 x = alGet accL x) := by
  intro entries
  induction entries with
  | nil =>
    intro accB accL _
    constructor
    · rintro ⟨p, hp, _⟩
      cases hp
    · intro _
      rfl
  | cons q entries ih =>
    intro accB accL hone
    rw [List.foldl_cons]
    dsimp only
    obtain ⟨ihE, ihU⟩ := ih
      (alSet accB (nf q.1) (((alGet accB (nf q.1)).getD []) ++ q.2))
      (q.2.foldl (fun lv nid => alSet lv nid (nf q.1)) accL)
      (fun p hp hxp => hone p (List.mem_cons_of_mem q hp) hxp)
    constructor
    · rintro ⟨p, hp, hxp⟩
      by_cases hxq : x ∈ q.2
      · have hq1 : q.1 = lx := hone q (List.mem_cons_self q entries) hxq
        have hL1 : alGet (q.2.foldl (fun lv nid => alSet lv nid (nf q.1)) accL) x
            = some (nf lx) := by
          rw [inner_levels_fold x (nf q.1) q.2 accL, if_pos hxq, hq1]
        by_cases hex : ∃ p ∈ entries, x ∈ p.2
        · exact ihE hex
        · push_neg at hex
          rw [ihU hex]
          exact hL1
      · have hpe : p ∈ entries := by
          rcases List.mem_cons.mp hp with rfl | h'
          · exact absurd hxp hxq
          · exact h'
        exact ihE ⟨p, hpe, hxp⟩
    · intro hall
      have hxq : x ∉ q.2 := hall q (List.mem_cons_self q entries)
      rw [ihU (fun p hp => hall p (List.mem_cons_of_mem q hp))]
      rw [inner_levels_fold x (nf q.1) q.2 accL, if_neg hxq]

theorem norm_fold_buckets (nf : Int → Int) :
    ∀ (entries : List (Int × List String)) (accB : List (Int × List String))
      (accL : List (String × Int)),
      (∀ p ∈ entries, alHas accB (nf p.1) = false) →
      List.Pairwise (fun p q => nf p.1 ≠ nf q.1) entries →
      (∀ p ∈ entries, ∀ j : Int, nf p.1 = j →
        alGet (entries.foldl
          (fun (acc : List (Int × List String) × List (String × Int)) bucket =>
            (alSet acc.1 (nf bucket.1)
              (((alGet acc.1 (nf bucket.1)).getD []) ++ bucket.2),
             bucket.2.foldl (fun lv nid => alSet lv nid (nf bucket.1)) acc.2))
          (accB, accL)).1 j = some p.2)
      ∧ (∀ j : Int, (∀ p ∈ entries, nf p.1 ≠ j) →
        alGet (entries.foldl
          (fun (acc : List (Int × List String) × List (String × Int)) bucket =>
            (alSet acc.1 (nf bucket.1)
              (((alGet acc.1 (nf bucket.1)).getD []) ++ bucket.2),
             bucket.2.foldl (fun lv nid => alSet lv nid (nf bucket.1)) acc.2))
          (accB, accL)).1 j = alGet accB j) := by
  intro entries
  induction entries with
  | nil =>
    intro accB accL _ _
    constructor
    · intro p hp
      cases hp
    · intro j _
      rfl
  | cons q entries ih =>
    intro accB accL hfresh hpw
    rw [List.foldl_cons]
    dsimp only
    have hget0 : alGet accB (nf q.1) = none :=
      alGet_isNone_of_not_has accB (nf q.1) (hfresh q (List.mem_cons_self q entries))
    have hfresh1 : ∀ p ∈ entries,
        alHas (alSet accB (nf q.1) (((alGet accB (nf q.1)).getD []) ++ q.2)) (nf p.1)
          = false := by
      intro p hp
      exact alHas_alSet_false accB (nf q.1) (nf p.1) _
        (hfresh p (List.mem_cons_of_mem q hp))
        (fun he => ((List.pairwise_cons.mp hpw).1 p hp) he.symm)
    obtain ⟨ihE, ihU⟩ := ih
      (alSet accB (nf q.1) (((alGet accB (nf q.1)).getD []) ++ q.2))
      (q.2.foldl (fun lv nid => alSet lv nid (nf q.1)) accL)
      hfresh1 (List.pairwise_cons.mp hpw).2
    have hB1q : alGet (alSet accB (nf q.1) (((alGet accB (nf q.1)).getD []) ++ q.2))
        (nf q.1) = some q.2 := by
      rw [alGet_alSet_self, hget0]
      simp
    constructor
    · intro p hp j hj
      rcases List.mem_cons.mp hp with rfl | hpe
      · subst hj
        rw [ihU (nf p.1) (fun r hr he =>
          ((List.pairwise_cons.mp hpw).1 r hr) he.symm)]
        exact hB1q
      · exact ihE p hpe j hj
    · intro j hj
      rw [ihU j (fun p hp => hj p (List.mem_cons_of_mem q hp))]
      rw [alGet_alSet_ne _ _ _ _
        (fun he : j = nf q.1 => hj q (List.mem_cons_self q entries) he.symm)]

theorem norm_fold_length (nf : Int → Int) :
    ∀ (entries : List (Int × List String)) (accB : List (Int × List String))
      (accL : List (String × Int)),
      (∀ p ∈ entries, alHas accB (nf p.1) = false) →
      List.Pairwise (fun p q => nf p.1 ≠ nf q.1) entries →
      (entries.foldl
        (fun (acc : List (Int × List String) × List (String × Int)) bucket =>
          (alSet acc.1 (nf bucket.1)
            (((alGet acc.1 (nf bucket.1)).getD []) ++ bucket.2),
           bucket.2.foldl (fun lv nid => alSet lv nid (nf bucket.1)) acc.2))
        (accB, accL)).1.length = accB.length + entries.length := by
  intro entries
  induction entries with
  | nil =>
    intro accB accL _ _
    rfl
  | cons q entries ih =>
    intro accB accL hfresh hpw
    rw [List.foldl_cons]
    dsimp only
    have hfresh1 : ∀ p ∈ entries,
        alHas (alSet accB (nf q.1) (((alGet accB (nf q.1)).getD []) ++ q.2)) (nf p.1)
          = false := by
      intro p hp
      exact alHas_alSet_false accB (nf q.1) (nf p.1) _
        (hfresh p (List.mem_cons_of_mem q hp))
        (fun he => ((List.pairwise_cons.mp hpw).1 p hp) he.symm)
    rw [ih (alSet accB (nf q.1) (((alGet accB (nf q.1)).getD []) ++ q.2))
      (q.2.foldl (fun lv nid => alSet lv nid (nf q.1)) accL)
      hfresh1 (List.pairwise_cons.mp hpw).2]
    rw [alSet_length_of_not_has accB (nf q.1) _
      (hfresh q (List.mem_cons_self q entries))]
    simp only [List.length_cons]
    omega

theorem usedLevels_sorted (keys : List Int) :
    List.Pairwise (fun a b : Int => a ≤ b)
      (keys.insertionSort (fun a b => a ≤ b)) :=
  List.sorted_insertionSort _ keys

theorem level_mem_keys (st : LvlState) (hC : Consist st) (x : String) (lx : Int)
    (hxv : x ∈ st.visited) (hgx : alGet st.levels x = some lx) :
    lx ∈ st.levelNodes.map Prod.fst := by
  have hbd : x ∈ bucketD st lx := (hC x lx).mpr ⟨hxv, hgx⟩
  unfold bucketD at hbd
  cases hb : alGet st.levelNodes lx with
  | none =>
    rw [hb] at hbd
    cases hbd
  | some b =>
    exact List.mem_map.mpr ⟨(lx, b), mem_of_alGet _ _ _ hb, rfl⟩

theorem bucket_mem_level (st : LvlState) (hC : Consist st) (hK : KeysNodup st)
    (x : String) (p : Int × List String) (hp : p ∈ st.levelNodes) (hxp : x ∈ p.2) :
    x ∈ st.visited ∧ alGet st.levels x = some p.1 := by
  have hgetp : alGet st.levelNodes p.1 = some p.2 :=
    alGet_of_mem_nodup st.levelNodes p.1 p.2 hp hK
  have hbd : x ∈ bucketD st p.1 := by
    unfold bucketD
    rw [hgetp]
    exact hxp
  exact (hC x p.1).mp hbd

theorem normalizeState_level_eq (st : LvlState) (hC : Consist st) (hK : KeysNodup st)
    (x : String) (lx : Int) (hxv : x ∈ st.visited) (hgx : alGet st.levels x = some lx) :
    alGet (normalizeState st).levels x
      = some (((((st.levelNodes.map Prod.fst).insertionSort
          (fun a b => a ≤ b)).indexOf lx : ℕ) : Int)) := by
  have hone : ∀ p ∈ st.levelNodes, x ∈ p.2 → p.1 = lx := by
    intro p hp hxp
    have h2 := (bucket_mem_level st hC hK x p hp hxp).2
    rw [hgx] at h2
    exact (Option.some.inj h2).symm
  have hex : ∃ p ∈ st.levelNodes, x ∈ p.2 := by
    have hbd : x ∈ bucketD st lx := (hC x lx).mpr ⟨hxv, hgx⟩
    unfold bucketD at hbd
    cases hb : alGet st.levelNodes lx with
    | none =>
      rw [hb] at hbd
      cases hbd
    | some b =>
      rw [hb] at hbd
      exact ⟨(lx, b), mem_of_alGet _ _ _ hb, hbd⟩
  have hlxu : lx ∈ (st.levelNodes.map Prod.fst).insertionSort
      (fun a b => a ≤ b) :=
    (List.perm_insertionSort _ _).mem_iff.mpr (level_mem_keys st hC x lx hxv hgx)
  have hmain := (norm_fold_levels
    (fun l => if l ∈ (st.levelNodes.map Prod.fst).insertionSort (fun a b => a ≤ b)
      then ((((st.levelNodes.map Prod.fst).insertionSort
        (fun a b => a ≤ b)).indexOf l : ℕ) : Int) else 0)
    x lx st.levelNodes [] st.levels hone).1 hex
  have hval : (if lx ∈ (st.levelNodes.map Prod.fst).insertionSort
        (fun a b => a ≤ b)
      then ((((st.levelNodes.map Prod.fst).insertionSort
        (fun a b => a ≤ b)).indexOf lx : ℕ) : Int) else 0)
      = ((((st.levelNodes.map Prod.fst).insertionSort
        (fun a b => a ≤ b)).indexOf lx : ℕ) : Int) := if_pos hlxu
  exact hmain.trans (congrArg some hval)

theorem normalizeState_strict (st : LvlState) (hC : Consist st) (hK : KeysNodup st)
    (x y : String) (la lb : Int)
    (hxv : x ∈ st.visited) (hyv : y ∈ st.visited)
    (hgx : alGet st.levels x = some la) (hgy : alGet st.levels y = some lb)
    (hlt : la < lb) :
    lvlGetD (normalizeState st) x < lvlGetD (normalizeState st) y := by
  have hx := normalizeState_level_eq st hC hK x la hxv hgx
  have hy := normalizeState_level_eq st hC hK y lb hyv hgy
  unfold lvlGetD
  rw [hx, hy]
  simp only [Option.getD_some]
  have hsorted := usedLevels_sorted (st.levelNodes.map Prod.fst)
  have hnd : ((st.levelNodes.map Prod.fst).insertionSort
      (fun a b => a ≤ b)).Nodup :=
    (List.perm_insertionSort _ _).nodup_iff.mpr hK
  have hau : la ∈ (st.levelNodes.map Prod.fst).insertionSort
      (fun a b => a ≤ b) :=
    (List.perm_insertionSort _ _).mem_iff.mpr (level_mem_keys st hC x la hxv hgx)
  have hbu : lb ∈ (st.levelNodes.map Prod.fst).insertionSort
      (fun a b => a ≤ b) :=
    (List.perm_insertionSort _ _).mem_iff.mpr (level_mem_keys st hC y lb hyv hgy)
  have := sorted_indexOf_strictMono _ hsorted hnd la lb hau hbu hlt
  exact_mod_cast this

theorem normalizeState_pairwise (st : LvlState) (hK : KeysNodup st) :
    List.Pairwise (fun p q : Int × List String =>
      (if p.1 ∈ (st.levelNodes.map Prod.fst).insertionSort (fun a b => a ≤ b)
        then ((((st.levelNodes.map Prod.fst).insertionSort
          (fun a b => a ≤ b)).indexOf p.1 : ℕ) : Int) else 0)
      ≠ (if q.1 ∈ (st.levelNodes.map Prod.fst).insertionSort (fun a b => a ≤ b)
        then ((((st.levelNodes.map Prod.fst).insertionSort
          (fun a b => a ≤ b)).indexOf q.1 : ℕ) : Int) else 0))
      st.levelNodes := by
  have hknd : (st.levelNodes.map Prod.fst).Nodup := hK
  have hperm := List.perm_insertionSort (fun a b : Int => a ≤ b) (st.levelNodes.map Prod.fst)
  have hund : ((st.levelNodes.map Prod.fst).insertionSort
      (fun a b => a ≤ b)).Nodup := hperm.nodup_iff.mpr hknd
  have h1 : List.Pairwise (fun p q : Int × List String => p.1 ≠ q.1) st.levelNodes :=
    List.pairwise_map.mp hknd
  refine h1.imp_of_mem ?_
  intro p q hp hq hne heq
  have hpu : p.1 ∈ (st.levelNodes.map Prod.fst).insertionSort
      (fun a b => a ≤ b) :=
    hperm.mem_iff.mpr (List.mem_map.mpr ⟨p, hp, rfl⟩)
  have hqu : q.1 ∈ (st.levelNodes.map Prod.fst).insertionSort
      (fun a b => a ≤ b) :=
    hperm.mem_iff.mpr (List.mem_map.mpr ⟨q, hq, rfl⟩)
  rw [if_pos hpu, if_pos hqu] at heq
  have h2 : ((st.levelNodes.map Prod.fst).insertionSort
        (fun a b => a ≤ b)).indexOf p.1
      = ((st.levelNodes.map Prod.fst).insertionSort
        (fun a b => a ≤ b)).indexOf q.1 := by
    exact_mod_cast heq
  exact hne (indexOf_inj_of_nodup _ hund p.1 q.1 hpu hqu h2)

theorem normalizeState_length (st : LvlState) (hK : KeysNodup st) :
    (normalizeState st).levelNodes.length = st.levelNodes.length := by
  have hmain := norm_fold_length
    (fun l => if l ∈ (st.levelNodes.map Prod.fst).insertionSort (fun a b => a ≤ b)
      then ((((st.levelNodes.map Prod.fst).insertionSort
        (fun a b => a ≤ b)).indexOf l : ℕ) : Int) else 0)
    st.levelNodes [] st.levels (fun p hp => rfl) (normalizeState_pairwise st hK)
  exact hmain.trans (Nat.zero_add _)

theorem normalizeState_bucket_iff (nodeIds : List String) (st : LvlState)
    (hinv : StInv nodeIds st) :
    ∀ i : Int, (∃ x, x ∈ bucketD (normalizeState st) i ∧ x ∈ nodeIds)
      ↔ (0 ≤ i ∧ i < ((normalizeState st).levelNodes.length : Int)) := by
  obtain ⟨hKeys, hBound, hCons, hVis, hNodup, hSub⟩ := hinv
  have hknd : (st.levelNodes.map Prod.fst).Nodup := hNodup
  have hperm := List.perm_insertionSort (fun a b : Int => a ≤ b) (st.levelNodes.map Prod.fst)
  have hund : ((st.levelNodes.map Prod.fst).insertionSort
      (fun a b => a ≤ b)).Nodup := hperm.nodup_iff.mpr hknd
  have hbk := norm_fold_buckets
    (fun l => if l ∈ (st.levelNodes.map Prod.fst).insertionSort (fun a b => a ≤ b)
      then ((((st.levelNodes.map Prod.fst).insertionSort
        (fun a b => a ≤ b)).indexOf l : ℕ) : Int) else 0)
    st.levelNodes [] st.levels (fun p hp => rfl) (normalizeState_pairwise st hNodup)
  have hlen := normalizeState_length st hNodup
  have hlenMS : ((st.levelNodes.map Prod.fst).insertionSort
      (fun a b => a ≤ b)).length = st.levelNodes.length := by
    rw [hperm.length_eq, List.length_map]
  intro i
  constructor
  · rintro ⟨x, hxb, hxid⟩
    have hne2 : ¬ ∀ p ∈ st.levelNodes,
        (if p.1 ∈ (st.levelNodes.map Prod.fst).insertionSort (fun a b => a ≤ b)
          then ((((st.levelNodes.map Prod.fst).insertionSort
            (fun a b => a ≤ b)).indexOf p.1 : ℕ) : Int) else 0) ≠ i := by
      intro hallp
      have h0 : alGet (normalizeState st).levelNodes i
          = alGet ([] : List (Int × List String)) i := hbk.2 i hallp
      have hx2 : x ∈ bucketD (normalizeState st) i := hxb
      unfold bucketD at hx2
      rw [h0] at hx2
      simp [alGet] at hx2
    push_neg at hne2
    obtain ⟨p, hp, hpi⟩ := hne2
    have hpu : p.1 ∈ (st.levelNodes.map Prod.fst).insertionSort
        (fun a b => a ≤ b) :=
      hperm.mem_iff.mpr (List.mem_map.mpr ⟨p, hp, rfl⟩)
    rw [if_pos hpu] at hpi
    have hidx : ((st.levelNodes.map Prod.fst).insertionSort
        (fun a b => a ≤ b)).indexOf p.1
          < ((st.levelNodes.map Prod.fst).insertionSort
            (fun a b => a ≤ b)).length :=
      List.indexOf_lt_length.mpr hpu
    exact ⟨by omega, by omega⟩
  · rintro ⟨h0, hlt⟩
    have hilen : i.toNat < ((st.levelNodes.map Prod.fst).insertionSort
        (fun a b => a ≤ b)).length := by
      omega
    have hou : ((st.levelNodes.map Prod.fst).insertionSort
          (fun a b => a ≤ b)).get ⟨i.toNat, hilen⟩
        ∈ (st.levelNodes.map Prod.fst).insertionSort (fun a b => a ≤ b) :=
      List.get_mem _ i.toNat hilen
    have hok : ((st.levelNodes.map Prod.fst).insertionSort
          (fun a b => a ≤ b)).get ⟨i.toNat, hilen⟩
        ∈ st.levelNodes.map Prod.fst := hperm.mem_iff.mp hou
    obtain ⟨p, hp, hpo⟩ := List.mem_map.mp hok
    have hgetp : alGet st.levelNodes p.1 = some p.2 :=
      alGet_of_mem_nodup st.levelNodes p.1 p.2 hp hNodup
    have hpne : p.2 ≠ [] := hKeys p.1 p.2 hgetp
    obtain ⟨x, hx⟩ := List.exists_mem_of_ne_nil p.2 hpne
    have hxv : x ∈ st.visited ∧ alGet st.levels x = some p.1 := by
      have hbd : x ∈ bucketD st p.1 := by
        unfold bucketD
        rw [hgetp]
        exact hx
      exact (hCons x p.1).mp hbd
    have hidx : ((st.levelNodes.map Prod.fst).insertionSort
          (fun a b => a ≤ b)).indexOf
          (((st.levelNodes.map Prod.fst).insertionSort
            (fun a b => a ≤ b)).get ⟨i.toNat, hilen⟩) = i.toNat :=
      List.indexOf_getElem hund i.toNat hilen
    have hnf : (if p.1 ∈ (st.levelNodes.map Prod.fst).insertionSort
          (fun a b => a ≤ b)
        then ((((st.levelNodes.map Prod.fst).insertionSort
          (fun a b => a ≤ b)).indexOf p.1 : ℕ) : Int) else 0) = i := by
      rw [if_pos (by rw [hpo]; exact hou)]
      rw [hpo, hidx]
      omega
    have hget2 : alGet (normalizeState st).levelNodes i = some p.2 := hbk.1 p hp i hnf
    refine ⟨x, ?_, hSub x hxv.1⟩
    unfold bucketD
    rw [hget2]
    exact hx

theorem treeLevelState_complete_norm (nodeIds : List String) (edges : List GEdge)
    (rank : String → ℕ) (N : ℕ) (hnd : nodeIds.Nodup)
    (hrank : ∀ e ∈ edges, rank e.source < rank e.target)
    (hwf : ∀ e ∈ edges, e.source ∈ nodeIds ∧ e.target ∈ nodeIds)
    (hN : ∀ x ∈ nodeIds, rank x ≤ N) :
    ∃ st1, treeLevelState (N + 2) nodeIds edges = some (normalizeState st1)
      ∧ StInv nodeIds st1 ∧ (∀ x ∈ nodeIds, x ∈ st1.visited)
      ∧ (∀ e ∈ edges, lvlGetD st1 e.source < lvlGetD st1 e.target) := by
  obtain ⟨st1, hfold, hinv1, hall, hstrict⟩ :=
    treeLevel_complete nodeIds edges rank N hnd hrank hwf hN
  refine ⟨st1, ?_, hinv1, hall, hstrict⟩
  unfold treeLevelState
  dsimp only
  rw [hfold]
  dsimp only
  rw [fallbackPass_of_all_visited nodeIds (rootNodesOf nodeIds edges) st1 hall]

/-- **C2** (direction respect): on an acyclic graph — acyclicity witnessed by a
rank function that increases along every edge and is bounded by `N` on the
node ids — with distinct node ids and all edge endpoints being actual nodes,
the level-assignment stage completes (the recursion-depth bound `N + 2`
suffices) and, after normalization, every edge's target level is strictly
greater than its source level. -/
theorem treeLayout_edge_levels (nodeIds : List String) (edges : List GEdge)
    (rank : String → ℕ) (N : ℕ) (hnd : nodeIds.Nodup)
    (hrank : ∀ e ∈ edges, rank e.source < rank e.target)
    (hwf : ∀ e ∈ edges, e.source ∈ nodeIds ∧ e.target ∈ nodeIds)
    (hN : ∀ x ∈ nodeIds, rank x ≤ N) :
    ∃ st, treeLevelState (N + 2) nodeIds edges = some st
      ∧ ∀ e ∈ edges, lvlGetD st e.source < lvlGetD st e.target := by
  obtain ⟨st1, heq, hinv1, hall, hstrict⟩ :=
    treeLevelState_complete_norm nodeIds edges rank N hnd hrank hwf hN
  refine ⟨normalizeState st1, heq, ?_⟩
  intro e he
  obtain ⟨hK1, hB1, hC1, hV1, hN1, hSub1⟩ := hinv1
  obtain ⟨la, hgs⟩ := hV1 e.source (hall e.source (hwf e he).1)
  obtain ⟨lb, hgt⟩ := hV1 e.target (hall e.target (hwf e he).2)
  have hlt : la < lb := by
    have h2 := hstrict e he
    unfold lvlGetD at h2
    rw [hgs, hgt] at h2
    simpa using h2
  exact normalizeState_strict st1 hC1 hN1 e.source e.target la lb
    (hall e.source (hwf e he).1) (hall e.target (hwf e he).2) hgs hgt hlt

/-- Witness for C2: on the two-node chain `A → B` (rank `A ↦ 0`, `B ↦ 1`,
bound `N = 1`) the layout completes at fuel 3 and the edge is strictly
descending in level. -/
theorem treeLayout_edge_levels_witness :
    ∃ st, treeLevelState 3 ["A", "B"] [⟨"A", "B"⟩] = some st
      ∧ ∀ e ∈ [(⟨"A", "B"⟩ : GEdge)],
          lvlGetD st e.source < lvlGetD st e.target :=
  treeLayout_edge_levels ["A", "B"] [⟨"A", "B"⟩]
    (fun x => if x = "B" then 1 else 0) 1
    (by decide) (by decide) (by decide) (by decide)

/-- **C3** (counterexample): on the graph with actual nodes `A, L` and edges
`A → G`, `G → L` through the dangling id `G` (never checked against the node
list, see C4), the layout completes and produces three normalized levels
`0, 1, 2`, but level `1` is occupied only by the ghost id `G`: no actual
node of the graph sits there, so the set of levels containing at least one
node is `{0, 2}` — not contiguous. -/
theorem treeLevels_ghost_level_counterexample :
    ∃ st, treeLevelState 10 ["A", "L"] [⟨"A", "G"⟩, ⟨"G", "L"⟩] = some st
      ∧ st.levelNodes.length = 3
      ∧ (∀ x ∈ bucketD st 1, x ∉ ["A", "L"])
      ∧ "A" ∈ bucketD st 0 ∧ "L" ∈ bucketD st 2 := by
  refine ⟨⟨["L", "G", "A"], [("L", 2), ("G", 1), ("A", 0)],
    [(2, ["L"]), (1, ["G"]), (0, ["A"])]⟩, ?_, rfl, by decide, by decide, by decide⟩
  rfl

/-- **C3** (corrected, amended statement): on a non-empty acyclic graph with
distinct node ids in which every edge endpoint is an actual node, the layout
completes and the normalized levels containing at least one node are exactly
`{0, …, L - 1}` where `L ≥ 1` is the number of level buckets. -/
theorem treeLayout_levels_contiguous (nodeIds : List String) (edges : List GEdge)
    (rank : String → ℕ) (N : ℕ) (hnd : nodeIds.Nodup) (hne : nodeIds ≠ [])
    (hrank : ∀ e ∈ edges, rank e.source < rank e.target)
    (hwf : ∀ e ∈ edges, e.source ∈ nodeIds ∧ e.target ∈ nodeIds)
    (hN : ∀ x ∈ nodeIds, rank x ≤ N) :
    ∃ st, treeLevelState (N + 2) nodeIds edges = some st
      ∧ 1 ≤ st.levelNodes.length
      ∧ (∀ i : Int, (∃ x, x ∈ bucketD st i ∧ x ∈ nodeIds)
          ↔ (0 ≤ i ∧ i < (st.levelNodes.length : Int))) := by
  obtain ⟨st1, heq, hinv1, hall, hstrict⟩ :=
    treeLevelState_complete_norm nodeIds edges rank N hnd hrank hwf hN
  refine ⟨normalizeState st1, heq, ?_, normalizeState_bucket_iff nodeIds st1 hinv1⟩
  obtain ⟨x0, hx0⟩ := List.exists_mem_of_ne_nil nodeIds hne
  have hx0v := hall x0 hx0
  obtain ⟨lv, hlv⟩ := hinv1.2.2.2.1 x0 hx0v
  have hkey := level_mem_keys st1 hinv1.2.2.1 x0 lv hx0v hlv
  have hne2 : st1.levelNodes ≠ [] := by
    intro he
    rw [he] at hkey
    simp at hkey
  rw [normalizeState_length st1 hinv1.2.2.2.2.1]
  exact List.length_pos.mpr hne2

/-- Witness for C3: on the two-node chain `A → B` the layout completes with
two levels `0, 1`, each holding one of the actual nodes. -/
theorem treeLayout_levels_contiguous_witness :
    ∃ st, treeLevelState 3 ["A", "B"] [⟨"A", "B"⟩] = some st
      ∧ 1 ≤ st.levelNodes.length
      ∧ (∀ i : Int, (∃ x, x ∈ bucketD st i ∧ x ∈ ["A", "B"])
          ↔ (0 ≤ i ∧ i < (st.levelNodes.length : Int))) :=
  treeLayout_levels_contiguous ["A", "B"] [⟨"A", "B"⟩]
    (fun x => if x = "B" then 1 else 0) 1
    (by decide) (by decide) (by decide) (by decide) (by decide)

end MMDit
